import Mathlib

/-!
Verification of the dcyfr-ai-cli daemon core against its specification.

This file shallowly embeds the daemon's concurrent execution substrate:
the health aggregator (health/state.ts), the event bus (daemon/events.ts),
the supervisor stop sequence (daemon/process.ts), the scheduler timer
arithmetic (daemon/scheduler.ts), the file watcher's debounce batching
(daemon/watcher.ts) and the priority task queue (daemon/queue.ts).

Conventions of the embedding:
* JavaScript numbers that only ever hold integers (timestamps, intervals,
  priorities, counters) become `Nat`; numbers that are divided or scaled
  (health scores, metric values, jitter) become `Rat`.
* `Math.round` is `fun x => Rat.floor (x + 1/2)` (JavaScript rounds
  halves toward positive infinity).
* JavaScript `Map`/`Set`/object collections become association lists /
  lists that preserve insertion order, mirroring the iteration order
  guarantees of the runtime.
* UUIDs become `Nat` drawn from a monotone counter; all we use about
  them is freshness, which the counter provides.
* File-system persistence (`persistState`, `saveSchedules`, log writes)
  is not modelled: the claims below are about in-memory behaviour, and
  all persistence failures are swallowed by the source.
-/

namespace Dcyfr

/-- Task priority values from daemon/types.ts (lower runs first). -/
def CRITICAL : Nat := 0

/-- HIGH priority (value 1) from daemon/types.ts. -/
def HIGH : Nat := 1

/-- NORMAL priority (value 2) from daemon/types.ts. -/
def NORMAL : Nat := 2

/-- LOW priority (value 3) from daemon/types.ts. -/
def LOW : Nat := 3

/-- TaskSource from daemon/types.ts. -/
inductive TaskSource where
  | scheduler
  | watcher
  | cli
deriving DecidableEq

/-- TaskStatus from daemon/types.ts. -/
inductive TaskStatus where
  | queued
  | running
  | completed
  | failed
  | expired
deriving DecidableEq

/-- The arguments of one `TaskQueue.enqueue` call, as produced by the
scheduler (scheduler.ts) and the watcher (watcher.ts). -/
structure EnqueueCall where
  scanner : String
  source : TaskSource
  priority : Nat
  files : Option (List String)
deriving DecidableEq

/-! ## Health aggregator (health/state.ts) -/

/-- ScanResult statuses from scanners/types.ts. -/
inductive ScanStatus where
  | pass
  | warn
  | fail
  | error
  | skipped
deriving DecidableEq

/-- ScanResult from scanners/types.ts, restricted to the fields the health
aggregator reads.  `metrics` is the object's entries in insertion order. -/
structure ScanResult where
  scanner : String
  status : ScanStatus
  violations : List String
  warnings : List String
  metrics : List (String × Rat)
  duration : Rat
  timestamp : Nat
  summary : String
deriving DecidableEq

/-- Reading `result.metrics[k]` on a plain JS object. -/
def lookupMetric (m : List (String × Rat)) (k : String) : Option Rat :=
  (m.find? (fun p => p.1 == k)).map (fun p => p.2)

/-- The hard-coded weight table of `getScannerWeight` in health/state.ts
(default weight 1 for ids not in the table). -/
def getScannerWeight (scanner : String) : Rat :=
  if scanner = "design-tokens" then 3
  else if scanner = "barrel-exports" then 2
  else if scanner = "pagelayout" then 2
  else if scanner = "license-headers" then 1
  else if scanner = "tlp-headers" then 1
  else if scanner = "docs-structure" then 1
  else if scanner = "dependency-audit" then 3
  else if scanner = "test-data-guardian" then 3
  else if scanner = "docs-generator" then 2
  else if scanner = "code-smell" then 2
  else if scanner = "api-compliance" then 3
  else 1

/-- The status-to-score switch in `calculateHealthScore`. -/
def statusBase : ScanStatus → Rat
  | ScanStatus.pass => 100
  | ScanStatus.warn => 70
  | ScanStatus.fail => 30
  | ScanStatus.error => 0
  | ScanStatus.skipped => 0

/-- JavaScript `Math.round (x * 10) / 10` (round half toward plus
infinity, then one decimal place). -/
def jsRound10 (x : Rat) : Rat :=
  ((⌊x * 10 + 1 / 2⌋ : Int) : Rat) / 10

/-- One iteration of the `for (const result of results)` loop of
`calculateHealthScore`: the accumulator is `(totalWeight, weightedScore)`.
A skipped result adds the weight and immediately subtracts it back
(`totalWeight -= weight; continue`), so its net effect is the identity. -/
def calcStep (acc : Rat × Rat) (r : ScanResult) : Rat × Rat :=
  let w := getScannerWeight r.scanner
  if r.status = ScanStatus.skipped then (acc.1 + w - w, acc.2)
  else
    (acc.1 + w,
      acc.2 +
        (match lookupMetric r.metrics "compliance" with
          | some c => c
          | none =>
            match lookupMetric r.metrics "usage" with
            | some u => u
            | none => statusBase r.status) * w)

/-- `calculateHealthScore` from health/state.ts. -/
def calculateHealthScore (results : List ScanResult) : Rat :=
  if results.isEmpty then 100
  else
    let acc := results.foldl calcStep (0, 0)
    if 0 < acc.1 then jsRound10 (acc.2 / acc.1) else 100

/-- Overall health classification: `healthy | degraded | critical`. -/
inductive HealthStatus where
  | healthy
  | degraded
  | critical
deriving DecidableEq

/-- One value of the `scanners` record of a health snapshot
(`ScannerHealthEntry` in scanners/types.ts). -/
structure ScannerHealthEntry where
  scanner : String
  score : Rat
  status : ScanStatus
  lastRun : Nat
  violations : Nat
  warnings : Nat
  metrics : List (String × Rat)
  summary : String
deriving DecidableEq

/-- The entry `buildHealthSnapshot` stores for one result:
`compliance ?? usage ?? (pass ? 100 : warn ? 70 : 30)`. -/
def mkScannerEntry (r : ScanResult) : ScannerHealthEntry :=
  { scanner := r.scanner
    score :=
      match lookupMetric r.metrics "compliance" with
      | some c => c
      | none =>
        match lookupMetric r.metrics "usage" with
        | some u => u
        | none =>
          if r.status = ScanStatus.pass then 100
          else if r.status = ScanStatus.warn then 70
          else 30
    status := r.status
    lastRun := r.timestamp
    violations := r.violations.length
    warnings := r.warnings.length
    metrics := r.metrics
    summary := r.summary }

/-- Assignment `obj[k] = v` on a plain JS object viewed as an association
list: an existing key is overwritten in place, a new key is appended. -/
def assocSet (m : List (String × ScannerHealthEntry)) (k : String)
    (v : ScannerHealthEntry) : List (String × ScannerHealthEntry) :=
  if m.any (fun p => p.1 == k) then
    m.map (fun p => if p.1 == k then (k, v) else p)
  else m ++ [(k, v)]

/-- HealthSnapshot (scanners/types.ts), minus the wall-clock `timestamp`
field, which the claims do not mention. -/
structure HealthSnapshot where
  overallScore : Rat
  overallStatus : HealthStatus
  scanners : List (String × ScannerHealthEntry)
  packages : Nat
  lastScanDuration : Rat
deriving DecidableEq

/-- `buildHealthSnapshot` from health/state.ts. -/
def buildHealthSnapshot (results : List ScanResult) : HealthSnapshot :=
  let score := calculateHealthScore results
  { overallScore := score
    overallStatus :=
      if 90 ≤ score then HealthStatus.healthy
      else if 70 ≤ score then HealthStatus.degraded
      else HealthStatus.critical
    scanners := results.foldl (fun m r => assocSet m r.scanner (mkScannerEntry r)) []
    packages := 0
    lastScanDuration := (results.map (fun r => r.duration)).sum }

/-! Specification-side definitions for the health claims (following the
wording of spec §4.7, to be compared with the code above). -/

/-- The results that enter the overall mean: spec §4.7 excludes `skipped`. -/
def nonSkipped (results : List ScanResult) : List ScanResult :=
  results.filter (fun r => decide (r.status ≠ ScanStatus.skipped))

/-- Spec §4.7 component score: `metrics.compliance` if present, else
`metrics.usage`, else the status mapping `pass→100, warn→70, fail→30,
error→0`. -/
def componentScore (r : ScanResult) : Rat :=
  match lookupMetric r.metrics "compliance" with
  | some c => c
  | none =>
    match lookupMetric r.metrics "usage" with
    | some u => u
    | none => statusBase r.status

/-- The weights of the non-skipped results, in order. -/
def scannerWeights (results : List ScanResult) : List Rat :=
  (nonSkipped results).map (fun r => getScannerWeight r.scanner)

/-- The weighted component scores of the non-skipped results, in order. -/
def weightedScores (results : List ScanResult) : List Rat :=
  (nonSkipped results).map (fun r => componentScore r * getScannerWeight r.scanner)

/-- Spec §4.7 weighted mean over non-skipped scanners. -/
def weightedMeanSpec (results : List ScanResult) : Rat :=
  (weightedScores results).sum / (scannerWeights results).sum

/-- Spec §4.7 classification: at least 90 healthy, at least 70 degraded,
otherwise critical (modelled from the spec's words). -/
def healthStatusSpec (score : Rat) : HealthStatus :=
  if 90 ≤ score then HealthStatus.healthy
  else if 70 ≤ score then HealthStatus.degraded
  else HealthStatus.critical

/-- The score the claim (C6) asserts for entries of the snapshot's
`scanners` map, as the code actually computes it:
`compliance ?? usage ?? (pass→100, warn→70, otherwise 30)`. -/
def snapshotScoreSpec (r : ScanResult) : Rat :=
  match lookupMetric r.metrics "compliance" with
  | some c => c
  | none =>
    match lookupMetric r.metrics "usage" with
    | some u => u
    | none =>
      if r.status = ScanStatus.pass then 100
      else if r.status = ScanStatus.warn then 70
      else 30

set_option maxHeartbeats 1000000 in
/-- Every entry of the weight table is at least 1 (so weights are positive). -/
theorem one_le_getScannerWeight (s : String) : 1 ≤ getScannerWeight s := by
  unfold getScannerWeight
  split_ifs <;> norm_num

/-- A skipped result leaves the accumulator of `calculateHealthScore`
unchanged (`totalWeight += w` then `totalWeight -= w; continue`). -/
theorem calcStep_skipped (acc : Rat × Rat) (r : ScanResult)
    (h : r.status = ScanStatus.skipped) : calcStep acc r = acc := by
  simp [calcStep, h]

/-- A non-skipped result adds its weight and its weighted component score. -/
theorem calcStep_not_skipped (acc : Rat × Rat) (r : ScanResult)
    (h : ¬ r.status = ScanStatus.skipped) :
    calcStep acc r = (acc.1 + getScannerWeight r.scanner,
      acc.2 + componentScore r * getScannerWeight r.scanner) := by
  simp [calcStep, h, componentScore]

/-- The loop of `calculateHealthScore` computes the two sums over the
non-skipped results. -/
theorem foldl_calcStep (results : List ScanResult) :
    ∀ a b : Rat, results.foldl calcStep (a, b) =
      (a + (scannerWeights results).sum, b + (weightedScores results).sum) := by
  induction results with
  | nil => intro a b; simp [scannerWeights, weightedScores, nonSkipped]
  | cons r rs ih =>
    intro a b
    by_cases h : r.status = ScanStatus.skipped
    · rw [List.foldl_cons, calcStep_skipped _ _ h, ih a b]
      simp [scannerWeights, weightedScores, nonSkipped, List.filter_cons, h]
    · rw [List.foldl_cons, calcStep_not_skipped _ _ h, ih]
      have h1 : scannerWeights (r :: rs) = getScannerWeight r.scanner :: scannerWeights rs := by
        simp [scannerWeights, nonSkipped, List.filter_cons, h]
      have h2 : weightedScores (r :: rs)
          = componentScore r * getScannerWeight r.scanner :: weightedScores rs := by
        simp [weightedScores, nonSkipped, List.filter_cons, h]
      rw [h1, h2, List.sum_cons, List.sum_cons]
      simp [add_assoc]

/-- The sum of the weights of the non-skipped results is positive as soon
as one result is not skipped. -/
theorem scannerWeights_sum_pos (results : List ScanResult)
    (h : ∃ r ∈ results, r.status ≠ ScanStatus.skipped) :
    0 < (scannerWeights results).sum := by
  apply List.sum_pos
  · intro x hx
    obtain ⟨r, -, rfl⟩ := List.mem_map.1 hx
    exact lt_of_lt_of_le one_pos (one_le_getScannerWeight _)
  · obtain ⟨r, hr, hne⟩ := h
    have hmem : r ∈ nonSkipped results := by
      simp [nonSkipped, List.mem_filter, hr, hne]
    intro hnil
    rw [scannerWeights, List.map_eq_nil_iff] at hnil
    rw [hnil] at hmem
    exact absurd hmem (List.not_mem_nil r)

/-- S6 example result with id `x`, status pass, no metrics. -/
def exX : ScanResult :=
  { scanner := "x", status := ScanStatus.pass, violations := [], warnings := [],
    metrics := [], duration := 0, timestamp := 0, summary := "" }

/-- S6 example result with id `y`, status warn. -/
def exY : ScanResult := { exX with scanner := "y", status := ScanStatus.warn }

/-- S6 example result with id `z`, status fail, `metrics.compliance = 42`. -/
def exZ : ScanResult :=
  { exX with scanner := "z", status := ScanStatus.fail, metrics := [("compliance", 42)] }

/-- C5: for every list of scan results with at least one non-skipped
entry, the overall health score equals the weighted mean of the
per-scanner component scores over non-skipped scanners (weights from the
per-scanner-id integer table, default 1), rounded to one decimal place by
`Math.round(x*10)/10`; the overall status classifies that score as
healthy at ≥ 90, degraded at ≥ 70, critical below.  In particular the S6
example `[pass, warn, fail+compliance 42]` with all weights 1 yields
component scores 100, 70, 42, overall 70.7, and status degraded. -/
theorem claim_C5_health_score :
    (∀ results : List ScanResult, (∃ r ∈ results, r.status ≠ ScanStatus.skipped) →
      calculateHealthScore results = jsRound10 (weightedMeanSpec results) ∧
      (buildHealthSnapshot results).overallStatus
        = healthStatusSpec (calculateHealthScore results)) ∧
    calculateHealthScore [exX, exY, exZ] = 707 / 10 ∧
    (nonSkipped [exX, exY, exZ]).map componentScore = [100, 70, 42] ∧
    (buildHealthSnapshot [exX, exY, exZ]).overallStatus = HealthStatus.degraded := by
  refine ⟨?_, ?_, ?_, ?_⟩
  · intro results hex
    have hne : results ≠ [] := by
      rintro rfl
      simp at hex
    have hempty : results.isEmpty = false := List.isEmpty_eq_false.2 hne
    have hpos := scannerWeights_sum_pos results hex
    constructor
    · show calculateHealthScore results = _
      unfold calculateHealthScore
      rw [hempty]
      simp only [Bool.false_eq_true, if_false, foldl_calcStep results 0 0, zero_add]
      rw [if_pos hpos]
      rfl
    · rfl
  · simp +decide [calculateHealthScore, calcStep, exX, exY, exZ, getScannerWeight,
      lookupMetric, statusBase, jsRound10, List.foldl, List.find?, List.isEmpty]
    norm_num
  · simp +decide [nonSkipped, componentScore, exX, exY, exZ, lookupMetric,
      statusBase, List.filter, List.find?, List.map]
  · simp +decide [buildHealthSnapshot, calculateHealthScore, calcStep, exX, exY, exZ,
      getScannerWeight, lookupMetric, statusBase, jsRound10, List.foldl, List.find?,
      List.isEmpty]
    norm_num

/-- Witness for C5 at the S6 input (one non-skipped result exists). -/
theorem claim_C5_witness :
    calculateHealthScore [exX, exY, exZ] = jsRound10 (weightedMeanSpec [exX, exY, exZ]) ∧
    (buildHealthSnapshot [exX, exY, exZ]).overallStatus
      = healthStatusSpec (calculateHealthScore [exX, exY, exZ]) :=
  claim_C5_health_score.1 [exX, exY, exZ]
    ⟨exX, by simp, by simp [exX]⟩

/-- Overwriting the value at key `k` in place does not change what
`find?` sees at a different key `q`. -/
theorem find?_map_set_ne (k q : String) (v : ScannerHealthEntry) (h : q ≠ k) :
    ∀ m : List (String × ScannerHealthEntry),
    (m.map (fun p => if p.1 == k then (k, v) else p)).find? (fun p => p.1 == q)
      = m.find? (fun p => p.1 == q) := by
  have hkq : (k == q) = false := by
    simp only [beq_eq_false_iff_ne, ne_eq]
    exact fun hk => h hk.symm
  intro m
  induction m with
  | nil => simp
  | cons a m ih =>
    by_cases ha : (a.1 == k) = true
    · have haq : (a.1 == q) = false := by
        simp only [beq_iff_eq] at ha
        simp only [beq_eq_false_iff_ne, ne_eq, ha]
        exact fun hq => h hq.symm
      simp only [List.map_cons, if_pos ha, List.find?_cons, hkq, haq]
      exact ih
    · simp only [List.map_cons, if_neg ha, List.find?_cons]
      cases haq : (a.1 == q) with
      | true => rfl
      | false => exact ih

/-- Setting a key that `q` differs from does not change what `find?`
sees at `q`. -/
theorem find?_assocSet_ne (m : List (String × ScannerHealthEntry)) (k q : String)
    (v : ScannerHealthEntry) (h : q ≠ k) :
    (assocSet m k v).find? (fun p => p.1 == q) = m.find? (fun p => p.1 == q) := by
  have hkq : (k == q) = false := by
    simp only [beq_eq_false_iff_ne, ne_eq]
    exact fun hk => h hk.symm
  unfold assocSet
  split
  · exact find?_map_set_ne k q v h m
  · rw [List.find?_append]
    have : List.find? (fun p => p.1 == q) [(k, v)] = none := by simp [hkq]
    rw [this, Option.or_none]

/-- Folding results whose scanners all differ from `k` over `assocSet`
leaves the lookup at `k` unchanged. -/
theorem foldl_assocSet_find? :
    ∀ (rs : List ScanResult) (m : List (String × ScannerHealthEntry)) (k : String),
    (∀ r ∈ rs, r.scanner ≠ k) →
    ((rs.foldl (fun m r => assocSet m r.scanner (mkScannerEntry r)) m).find?
        (fun p => p.1 == k))
      = m.find? (fun p => p.1 == k) := by
  intro rs
  induction rs with
  | nil => intro m k _; rfl
  | cons x rs ih =>
    intro m k hk
    rw [List.foldl_cons, ih _ k (fun r hr => hk r (List.mem_cons_of_mem x hr)),
      find?_assocSet_ne]
    exact fun hq => hk x (List.mem_cons_self x rs) hq.symm

/-- After folding a result list with pairwise-distinct scanner ids over
`assocSet`, each result's scanner id maps to exactly the entry built from
that result. -/
theorem foldl_assocSet_mem :
    ∀ (rs : List ScanResult) (m : List (String × ScannerHealthEntry)) (r : ScanResult),
    r ∈ rs →
    (rs.map (fun x => x.scanner)).Nodup →
    (∀ p ∈ m, p.1 ∉ rs.map (fun x => x.scanner)) →
    (rs.foldl (fun m x => assocSet m x.scanner (mkScannerEntry x)) m).find?
        (fun p => p.1 == r.scanner)
      = some (r.scanner, mkScannerEntry r) := by
  intro rs
  induction rs with
  | nil => intro m r hr; exact absurd hr (List.not_mem_nil r)
  | cons x rs ih =>
    intro m r hr hnodup hm
    have hxm : ∀ p ∈ m, p.1 ≠ x.scanner := by
      intro p hp he
      exact hm p hp (he ▸ List.mem_cons_self _ _)
    have hany : m.any (fun p => p.1 == x.scanner) = false := by
      rw [List.any_eq_false]
      intro p hp
      simp [hxm p hp]
    have hset : assocSet m x.scanner (mkScannerEntry x) = m ++ [(x.scanner, mkScannerEntry x)] := by
      unfold assocSet
      rw [hany]
      simp
    have hxrs : x.scanner ∉ rs.map (fun y => y.scanner) := (List.nodup_cons.1 hnodup).1
    rw [List.foldl_cons, hset]
    rcases List.mem_cons.1 hr with rfl | hr2
    · rw [foldl_assocSet_find? rs _ r.scanner (fun y hy he => hxrs (he ▸ List.mem_map_of_mem _ hy))]
      rw [List.find?_append]
      have hnone : m.find? (fun p => p.1 == r.scanner) = none := by
        rw [List.find?_eq_none]
        intro p hp
        simp [hxm p hp]
      rw [hnone, Option.none_or]
      simp
    · apply ih _ r hr2 (List.nodup_cons.1 hnodup).2
      intro p hp
      rcases List.mem_append.1 hp with hpm | hps
      · intro hcon
        exact hm p hpm (List.mem_cons_of_mem _ hcon)
      · simp only [List.mem_singleton] at hps
        subst hps
        simpa using hxrs

/-- C6 counterexample input: an `error`-status result with no metrics. -/
def rErr : ScanResult :=
  { scanner := "zz", status := ScanStatus.error, violations := [], warnings := [],
    metrics := [], duration := 0, timestamp := 0, summary := "" }

/-- C6 counterexample input: a `skipped` result with no metrics. -/
def rSkip : ScanResult := { rErr with scanner := "ww", status := ScanStatus.skipped }

/-- C6 counterexample: in the snapshot's `scanners` map the code scores an
`error` result (no metrics) as 30, not 0 as the claim states, and the map
does contain an entry for a `skipped` result, which the claim says is
excluded.  So the claim is false for the scores recorded in the
snapshot's scanners map. -/
theorem claim_C6_counterexample :
    ((buildHealthSnapshot [rErr, rSkip]).scanners.find?
        (fun p => p.1 == "zz")).map (fun p => p.2.score) = some 30 ∧
    (30 : Rat) ≠ 0 ∧
    ((buildHealthSnapshot [rErr, rSkip]).scanners.map (fun p => p.1)) = ["zz", "ww"] := by
  refine ⟨?_, by norm_num, ?_⟩ <;>
    simp +decide [buildHealthSnapshot, assocSet, mkScannerEntry, rErr, rSkip,
      lookupMetric, List.find?, List.foldl]

/-- C6 amended: the component scores entering the overall mean follow
`compliance ?? usage ?? (pass→100, warn→70, fail→30, error→0)` with
skipped results excluded, as claimed; but the score recorded in the
snapshot's `scanners` map is `compliance ?? usage ?? (pass→100, warn→70,
otherwise 30)` — `error` maps to 30 there, not 0, and `skipped` results
get an entry rather than being excluded. -/
theorem claim_C6_component_scores_amended :
    (∀ (acc : Rat × Rat) (r : ScanResult),
      (r.status = ScanStatus.skipped → calcStep acc r = acc) ∧
      (r.status ≠ ScanStatus.skipped →
        calcStep acc r = (acc.1 + getScannerWeight r.scanner,
          acc.2 + componentScore r * getScannerWeight r.scanner))) ∧
    (∀ (results : List ScanResult) (r : ScanResult), r ∈ results →
      (results.map (fun x => x.scanner)).Nodup →
      (buildHealthSnapshot results).scanners.find? (fun p => p.1 == r.scanner)
        = some (r.scanner, mkScannerEntry r)) ∧
    (∀ r : ScanResult, (mkScannerEntry r).score = snapshotScoreSpec r) := by
  refine ⟨fun acc r => ⟨calcStep_skipped acc r, calcStep_not_skipped acc r⟩,
    fun results r hr hnodup => ?_, fun r => rfl⟩
  exact foldl_assocSet_mem results [] r hr hnodup (by simp)

/-- Witness for C6's amended theorem at a concrete input. -/
theorem claim_C6_witness :
    (buildHealthSnapshot [rErr, rSkip]).scanners.find? (fun p => p.1 == rErr.scanner)
      = some (rErr.scanner, mkScannerEntry rErr) :=
  claim_C6_component_scores_amended.2.1 [rErr, rSkip] rErr (by simp)
    (by simp [rErr, rSkip])

/-! ## Event bus (daemon/events.ts) -/

/-- A subscribed listener.  JavaScript identifies listeners by object
identity; the embedding identifies them by `id`.  The body may throw,
modelled by returning `Except.error`. -/
structure Listener where
  id : Nat
  behavior : String → Except String Unit

/-- `Set.add` on a listener set: a listener already present (same
identity) is not added again; otherwise it is appended, since JS `Set`
iterates in insertion order. -/
def addListener (l : List Listener) (x : Listener) : List Listener :=
  if l.any (fun y => y.id == x.id) then l else l ++ [x]

/-- The `EventBus` state: per-type listener sets (a `Map` keyed by event
type, in insertion order) and the global listener set. -/
structure EventBus where
  listeners : List (String × List Listener)
  globalListeners : List Listener

/-- A fresh `EventBus` (both collections empty). -/
def emptyBus : EventBus := { listeners := [], globalListeners := [] }

/-- `EventBus.on`: get-or-create the type's set, then `Set.add`. -/
def busOn (bus : EventBus) (type : String) (x : Listener) : EventBus :=
  match bus.listeners.find? (fun p => p.1 == type) with
  | some _ =>
    { bus with listeners :=
        bus.listeners.map (fun p => if p.1 == type then (p.1, addListener p.2 x) else p) }
  | none => { bus with listeners := bus.listeners ++ [(type, addListener [] x)] }

/-- `EventBus.onAny`: add to the global set. -/
def busOnAny (bus : EventBus) (x : Listener) : EventBus :=
  { bus with globalListeners := addListener bus.globalListeners x }

/-- The listeners registered for one type (empty when the type has no
entry in the map). -/
def typedListeners (bus : EventBus) (type : String) : List Listener :=
  match bus.listeners.find? (fun p => p.1 == type) with
  | some p => p.2
  | none => []

/-- The `for (const listener of ...) { try { listener(event) } catch {} }`
loop of `EventBus.emit`: every listener is invoked in order; a thrown
error is swallowed and iteration continues.  The result is the
invocation log: `(listener id, did not throw)`. -/
def invokeAll : List Listener → String → List (Nat × Bool)
  | [], _ => []
  | l :: rest, e =>
    match l.behavior e with
    | Except.ok _ => (l.id, true) :: invokeAll rest e
    | Except.error _ => (l.id, false) :: invokeAll rest e

/-- `EventBus.emit`: first the type-specific listeners, then the global
listeners.  The function is total — no exception reaches the emitter. -/
def emitLog (bus : EventBus) (type : String) (payload : String) : List (Nat × Bool) :=
  invokeAll (typedListeners bus type) payload ++ invokeAll bus.globalListeners payload

/-- `invokeAll` invokes every listener of the list, in list order,
whatever the listeners' behaviors (including throwing ones). -/
theorem invokeAll_map_fst (ls : List Listener) (e : String) :
    (invokeAll ls e).map (fun p => p.1) = ls.map (fun l => l.id) := by
  induction ls with
  | nil => rfl
  | cons l rest ih =>
    unfold invokeAll
    cases l.behavior e <;> simpa using ih

/-- A listener that always succeeds. -/
def okListener (i : Nat) : Listener := { id := i, behavior := fun _ => Except.ok () }

/-- A listener that always throws. -/
def throwListener (i : Nat) : Listener :=
  { id := i, behavior := fun _ => Except.error "boom" }

/-- The C9 counterexample bus: a global listener (id 0) registered first,
then a per-type listener (id 1) that throws. -/
def counterBus : EventBus := busOn (busOnAny emptyBus (okListener 0)) "task:queued" (throwListener 1)

/-- C9 counterexample: with a global listener registered before a
per-type listener, `emit` invokes the per-type listener first — the
overall invocation order is not the order of registration, which was
id 0 before id 1.  (The log also shows the throwing listener id 1 did
not prevent listener id 0 from running.) -/
theorem claim_C9_counterexample :
    emitLog counterBus "task:queued" "x" = [(1, false), (0, true)] ∧
    [(1 : Nat), 0] ≠ [0, 1] := by
  constructor
  · rfl
  · intro h
    exact absurd (List.head_eq_of_cons_eq h) one_ne_zero

/-- C9 amended: `emit` invokes all subscribers of the event's type first,
in their registration order, then all global subscribers in their
registration order, all synchronously in the emitter's execution
context; a listener that throws neither prevents the remaining listeners
from being invoked (the log always covers every registered listener)
nor surfaces an exception to the emitter (`emitLog` is total). -/
theorem claim_C9_emit_amended (bus : EventBus) (type payload : String) :
    (emitLog bus type payload).map (fun p => p.1)
      = (typedListeners bus type).map (fun l => l.id)
        ++ bus.globalListeners.map (fun l => l.id) := by
  unfold emitLog
  rw [List.map_append, invokeAll_map_fst, invokeAll_map_fst]

/-! ## Supervisor stop sequence (daemon/process.ts) -/

/-- The observable steps of `DaemonProcess.stop`. -/
inductive StopAction where
  | emitStopping
  | stopScheduler
  | stopWatcher
  | warnDrainTimeout
  | saveHealth
  | stopHeartbeat
  | clearListeners
  | removeSignalHandlers
  | removePidFile
  | emitStopped
deriving DecidableEq

/-- The trace of `DaemonProcess.stop` as `(time, action)` pairs, given
the instant `drainTime` at which `queue.drain()` resolves (all running
tasks finished) and the configured `gracefulShutdownTimeout` deadline.
The code arms `setTimeout(() => log warning, deadline)` and then
`await this.queue.drain()` unconditionally: the timer only logs, so
every step after the drain happens at `drainTime`, however large; the
timer is cancelled when the drain resolves first. -/
def stopTrace (drainTime deadline : Nat) : List (Nat × StopAction) :=
  [(0, StopAction.emitStopping), (0, StopAction.stopScheduler), (0, StopAction.stopWatcher)]
    ++ (if deadline < drainTime then [(deadline, StopAction.warnDrainTimeout)] else [])
    ++ [(drainTime, StopAction.saveHealth), (drainTime, StopAction.stopHeartbeat),
        (drainTime, StopAction.clearListeners), (drainTime, StopAction.removeSignalHandlers),
        (drainTime, StopAction.removePidFile), (drainTime, StopAction.emitStopped)]

/-- The instant at which the post-drain stop steps run in the code:
`await this.queue.drain()` is not raced against the timer, so they run
only when the queue actually drains. -/
def stopProceedTime (drainTime deadline : Nat) : Nat :=
  let _ := deadline
  drainTime

/-- Modelled from the spec: §4.6 step 4 says "Arm a drain deadline
(default 10 s). Poll `queue.drain()`; if the deadline elapses first, log
a warning and proceed" — i.e. the remaining stop steps run at
`min drainTime deadline`. -/
def stopProceedTimeSpec (drainTime deadline : Nat) : Nat :=
  min drainTime deadline

/-- C4 evaluated at the failing input: with the default 10 s deadline and
a running task that finishes after 20 s, the code logs the warning at
10 s but runs every remaining stop step (health snapshot, heartbeat
stop, listener cleanup, signal-handler and PID-file removal,
`daemon:stopped`) only at 20 s, while the claim requires it to proceed
at the 10 s deadline. -/
theorem claim_C4_drain_not_bounded :
    stopTrace 20000 10000 =
      [(0, StopAction.emitStopping), (0, StopAction.stopScheduler), (0, StopAction.stopWatcher),
       (10000, StopAction.warnDrainTimeout),
       (20000, StopAction.saveHealth), (20000, StopAction.stopHeartbeat),
       (20000, StopAction.clearListeners), (20000, StopAction.removeSignalHandlers),
       (20000, StopAction.removePidFile), (20000, StopAction.emitStopped)] ∧
    stopProceedTime 20000 10000 = 20000 ∧
    stopProceedTimeSpec 20000 10000 = 10000 ∧
    stopProceedTime 20000 10000 ≠ stopProceedTimeSpec 20000 10000 := by
  refine ⟨by decide, rfl, by decide, by decide⟩

/-! ## Scheduler timers (daemon/scheduler.ts) -/

/-- A schedule entry (daemon/types.ts), with times in milliseconds as
rationals so jitter fractions are exact. -/
structure SchedEntry where
  id : String
  name : String
  scanner : String
  interval : Rat
  enabled : Bool
  lastRun : Option Rat
  nextRun : Option Rat
  left : Unit := ()
deriving DecidableEq

/-- `Scheduler.getTimeUntilNextRun`: never-run entries get a uniform
random delay below 30 s (`neverRunDraw ∈ [0,1)` is the `Math.random()`
sample); otherwise `max(interval - (now - lastRun), 0)`.  Note the code
computes from `lastRun`, not from `nextRun`. -/
def getTimeUntilNextRun (now interval : Rat) (lastRun : Option Rat)
    (neverRunDraw : Rat) : Rat :=
  match lastRun with
  | none => neverRunDraw * 30000
  | some lr => max (interval - (now - lr)) 0

/-- The jitter of `Scheduler.startSchedule`:
`Math.random() * schedule.interval * 0.1` with `jitterDraw ∈ [0,1)`. -/
def jitterOf (jitterDraw interval : Rat) : Rat :=
  jitterDraw * interval * (1 / 10)

/-- The delay of the first timer armed by `Scheduler.startSchedule`:
`setTimeout(..., Math.max(firstDelay, 1000))` where
`firstDelay = getTimeUntilNextRun(schedule) + jitter`. -/
def startScheduleDelay (now interval : Rat) (lastRun : Option Rat)
    (neverRunDraw jitterDraw : Rat) : Rat :=
  max (getTimeUntilNextRun now interval lastRun neverRunDraw + jitterOf jitterDraw interval) 1000

/-- The period of the recurring timer `startSchedule` installs once the
first timeout fires: `setInterval(..., schedule.interval)` — no jitter. -/
def rearmDelay (interval : Rat) : Rat := interval

/-- The enqueue call `Scheduler.triggerSchedule` makes:
`queue.enqueue(schedule.scanner, 'scheduler', TaskPriority.NORMAL,
undefined, schedule.options)`. -/
def triggerScheduleCall (e : SchedEntry) : EnqueueCall :=
  { scanner := e.scanner, source := TaskSource.scheduler, priority := NORMAL, files := none }

/-- The bookkeeping `Scheduler.triggerSchedule` performs:
`lastRun = now`, `nextRun = now + interval` (then persists). -/
def triggerScheduleUpdate (now : Rat) (e : SchedEntry) : SchedEntry :=
  { e with lastRun := some now, nextRun := some (now + e.interval) }

/-- Modelled from the spec's words (claim C8): first timer at
`max(nextRun - now, 0) + jitter`. -/
def specFirstDelay (now nextRun jitter : Rat) : Rat :=
  max (nextRun - now) 0 + jitter

/-- Modelled from the spec's words (claim C8): re-arm at
`interval + jitter`. -/
def specRearmDelay (interval jitter : Rat) : Rat := interval + jitter

/-- C8 counterexample: (a) re-arm — with interval 100000 ms and jitter
5000 ms (a legal draw, `5000 ∈ [0, 0.1·100000)`), the code re-arms at
exactly 100000 ms, not `interval + jitter = 105000 ms`; (b) first
delay — an entry last run 99500 ms ago (so `nextRun - now = 500`) with
zero jitter is armed at 1000 ms because of the `Math.max(firstDelay,
1000)` floor, not at the claimed 500 ms. -/
theorem claim_C8_counterexample :
    rearmDelay 100000 = 100000 ∧
    specRearmDelay 100000 5000 = 105000 ∧
    rearmDelay 100000 ≠ specRearmDelay 100000 5000 ∧
    ((0 : Rat) ≤ 5000 ∧ (5000 : Rat) < 100000 * (1 / 10)) ∧
    startScheduleDelay 1000000 100000 (some 900500) 0 0 = 1000 ∧
    specFirstDelay 1000000 (900500 + 100000) 0 = 500 ∧
    (1000 : Rat) ≠ 500 := by
  refine ⟨rfl, by norm_num [specRearmDelay], by norm_num [rearmDelay, specRearmDelay],
    ⟨by norm_num, by norm_num⟩, ?_, by norm_num [specFirstDelay], by norm_num⟩
  unfold startScheduleDelay getTimeUntilNextRun jitterOf
  norm_num

/-- C8 amended: for an enabled entry with a recorded `lastRun`, the first
timer is armed at `max(max(nextRun − now, 0) + jitter, 1000)` — the
spec's delay, but floored at one second — where `nextRun = lastRun +
interval` (the code computes the remaining time from `lastRun`; the two
agree exactly when `nextRun` was recorded as `lastRun + interval`, as
`triggerSchedule` and `catchUp` do) and `jitter = draw · interval · 0.1
∈ [0, 0.1·interval)` for a draw in `[0,1)`; a never-run entry instead
gets a uniform delay below 30 s plus jitter, floored at one second.
When the timer fires, `triggerSchedule` enqueues one task for the
entry's scanner at priority NORMAL with no file list, records `lastRun =
now` and `nextRun = now + interval`, persists, and the recurring timer
is re-armed at exactly `interval`, with no jitter. -/
theorem claim_C8_scheduler_amended (now lr interval jitterDraw neverRunDraw : Rat)
    (hd0 : 0 ≤ jitterDraw) (hd1 : jitterDraw < 1) (hint : 0 < interval) :
    startScheduleDelay now interval (some lr) neverRunDraw jitterDraw
      = max (specFirstDelay now (lr + interval) (jitterOf jitterDraw interval)) 1000 ∧
    (0 ≤ jitterOf jitterDraw interval ∧ jitterOf jitterDraw interval < interval * (1 / 10)) ∧
    (∀ e : SchedEntry,
      triggerScheduleCall e
        = { scanner := e.scanner, source := TaskSource.scheduler,
            priority := NORMAL, files := none } ∧
      (triggerScheduleUpdate now e).lastRun = some now ∧
      (triggerScheduleUpdate now e).nextRun = some (now + e.interval) ∧
      rearmDelay e.interval = e.interval) := by
  refine ⟨?_, ⟨?_, ?_⟩, fun e => ⟨rfl, rfl, rfl, rfl⟩⟩
  · unfold startScheduleDelay specFirstDelay
    simp only [getTimeUntilNextRun]
    have : interval - (now - lr) = lr + interval - now := by ring
    rw [this]
  · exact mul_nonneg (mul_nonneg hd0 hint.le) (by norm_num)
  · unfold jitterOf
    rw [mul_comm jitterDraw interval, mul_assoc]
    have h1 : interval * (1/10) = interval * (1 * (1/10)) := by ring
    calc interval * (jitterDraw * (1/10)) < interval * (1 * (1/10)) := by
          apply mul_lt_mul_of_pos_left _ hint
          apply mul_lt_mul_of_pos_right hd1
          norm_num
      _ = interval * (1/10) := by ring

/-- Witness for C8's amended theorem at a concrete input: interval
100000 ms, last run 99500 ms before now, jitter draw 1/2. -/
theorem claim_C8_witness :
    startScheduleDelay 1000000 100000 (some 900500) 0 (1 / 2)
      = max (specFirstDelay 1000000 (900500 + 100000) (jitterOf (1 / 2) 100000)) 1000 ∧
    (0 ≤ jitterOf (1 / 2) 100000 ∧ jitterOf (1 / 2) 100000 < 100000 * (1 / 10)) :=
  ⟨(claim_C8_scheduler_amended 1000000 900500 100000 (1 / 2) 0 (by norm_num) (by norm_num)
      (by norm_num)).1,
   (claim_C8_scheduler_amended 1000000 900500 100000 (1 / 2) 0 (by norm_num) (by norm_num)
      (by norm_num)).2.1⟩

/-! ## File watcher debounce batching (daemon/watcher.ts)

One batch key is considered (the claim is per batch key): the
chronological matching change events for that key are `(time, file)`
pairs, and the debounce timer state is folded over them.  A flush that
the real system performs when a timer fires with no further event before
its deadline is recorded, timestamped with that deadline, when the next
event arrives (or at the end of the trace), which produces the same
flush list. -/

/-- `Set.add` on the batch's file set (insertion order, no duplicates). -/
def addFile (files : List String) (f : String) : List String :=
  if f ∈ files then files else files ++ [f]

/-- An open debounce batch: accumulated files and the instant the
currently armed timer fires. -/
structure OpenBatch where
  files : List String
  deadline : Nat
deriving DecidableEq

/-- The watcher state for one batch key: the open batch, if any, and the
flushes performed so far (`(flush time, files)`). -/
structure WatchAcc where
  openBatch : Option OpenBatch
  flushes : List (Nat × List String)
deriving DecidableEq

/-- `FileWatcher.handleChange` for one event on one batch key: no open
batch opens one with deadline `time + debounce`; an open batch whose
timer already fired (deadline ≤ time) is flushed and a fresh batch
opened; otherwise the file is added and the timer reset to
`time + debounce`. -/
def handleChangeStep (d : Nat) (acc : WatchAcc) (ev : Nat × String) : WatchAcc :=
  match acc.openBatch with
  | none => { acc with openBatch := some { files := [ev.2], deadline := ev.1 + d } }
  | some b =>
    if b.deadline ≤ ev.1 then
      { openBatch := some { files := [ev.2], deadline := ev.1 + d },
        flushes := acc.flushes ++ [(b.deadline, b.files)] }
    else
      { acc with openBatch := some { files := addFile b.files ev.2, deadline := ev.1 + d } }

/-- The flush the still-armed timer will perform after the last event. -/
def finalizeBatch : Option OpenBatch → List (Nat × List String)
  | some b => [(b.deadline, b.files)]
  | none => []

/-- Fold the watcher over a chronological event trace. -/
def runWatch (d : Nat) (events : List (Nat × String)) : WatchAcc :=
  events.foldl (handleChangeStep d) { openBatch := none, flushes := [] }

/-- All flushes the batch key performs on the trace, in order. -/
def allFlushes (d : Nat) (events : List (Nat × String)) : List (Nat × List String) :=
  (runWatch d events).flushes ++ finalizeBatch (runWatch d events).openBatch

/-- `FileWatcher.flushBatch`: one `queue.enqueue(scanner, 'watcher',
TaskPriority.HIGH, files)` call per scanner of the batch key. -/
def flushCalls (scanners : List String) (files : List String) : List EnqueueCall :=
  scanners.map (fun sc =>
    { scanner := sc, source := TaskSource.watcher, priority := HIGH, files := some files })

/-- Modelled from the spec's words (claim C7): walk the remaining events
of the current batch, keeping events less than `d` after the previous
one in the batch and flushing at `previous + d` otherwise. -/
def groupGo (d : Nat) : List (Nat × String) → Nat → List String → List (Nat × List String)
  | [], last, files => [(last + d, files)]
  | e :: rest, last, files =>
    if e.1 < last + d then groupGo d rest e.1 (addFile files e.2)
    else (last + d, files) :: groupGo d rest e.1 [e.2]

/-- Modelled from the spec's words (claim C7): the flushes are one per
maximal group of events separated by less than `d`, at the group's last
event plus `d`, with the group's accumulated files. -/
def specFlushes (d : Nat) : List (Nat × String) → List (Nat × List String)
  | [] => []
  | e :: rest => groupGo d rest e.1 [e.2]

/-- Folding the watcher from an open batch produces exactly the grouped
flushes. -/
theorem foldl_handleChange_open (d : Nat) :
    ∀ (rest : List (Nat × String)) (last : Nat) (files : List String)
      (flAcc : List (Nat × List String)),
    ((rest.foldl (handleChangeStep d)
        { openBatch := some { files := files, deadline := last + d }, flushes := flAcc }).flushes
      ++ finalizeBatch (rest.foldl (handleChangeStep d)
        { openBatch := some { files := files, deadline := last + d }, flushes := flAcc }).openBatch)
      = flAcc ++ groupGo d rest last files := by
  intro rest
  induction rest with
  | nil => intro last files flAcc; simp [finalizeBatch, groupGo]
  | cons e rest ih =>
    intro last files flAcc
    by_cases h : e.1 < last + d
    · have hd : ¬ (last + d ≤ e.1) := by omega
      simp only [List.foldl_cons, handleChangeStep, if_neg hd]
      rw [ih e.1 (addFile files e.2) flAcc, groupGo, if_pos h]
    · have hd : last + d ≤ e.1 := by omega
      simp only [List.foldl_cons, handleChangeStep, if_pos hd]
      rw [ih e.1 [e.2] (flAcc ++ [(last + d, files)]), groupGo, if_neg h,
        List.append_assoc]
      rfl

/-- The watcher's flush list coincides with the grouped description. -/
theorem allFlushes_eq_specFlushes (d : Nat) (events : List (Nat × String)) :
    allFlushes d events = specFlushes d events := by
  cases events with
  | nil => rfl
  | cons e rest =>
    unfold allFlushes runWatch specFlushes
    rw [List.foldl_cons]
    simp only [handleChangeStep]
    simpa using foldl_handleChange_open d rest e.1 [e.2] []

/-- Each grouped flush happens at `t + d` for an event time `t` followed
by at least `d` of silence among the later events. -/
theorem groupGo_silence (d : Nat) :
    ∀ (rest : List (Nat × String)) (last : Nat) (files : List String),
    List.Pairwise (fun a b => a.1 < b.1) rest →
    (∀ u ∈ rest, last < u.1) →
    ∀ fl ∈ groupGo d rest last files,
      ∃ t : Nat, (t = last ∨ t ∈ rest.map (fun e => e.1)) ∧ fl.1 = t + d ∧
        ∀ u ∈ rest.map (fun e => e.1), ¬ (t < u ∧ u < t + d) := by
  intro rest
  induction rest with
  | nil =>
    intro last files _ _ fl hfl
    rw [groupGo, List.mem_singleton] at hfl
    exact ⟨last, Or.inl rfl, by rw [hfl], by simp⟩
  | cons e rest ih =>
    intro last files hpw hlt fl hfl
    have hpw' := (List.pairwise_cons.1 hpw).2
    have helt := (List.pairwise_cons.1 hpw).1
    rw [groupGo] at hfl
    by_cases h : e.1 < last + d
    · rw [if_pos h] at hfl
      obtain ⟨t, ht, hfl1, hsil⟩ := ih e.1 (addFile files e.2) hpw' helt fl hfl
      have het : e.1 ≤ t := by
        rcases ht with h1 | htm
        · exact h1.ge
        · obtain ⟨u, hu, rfl⟩ := List.mem_map.1 htm
          exact (helt u hu).le
      refine ⟨t, ?_, hfl1, ?_⟩
      · rcases ht with h1 | htm
        · exact Or.inr (by rw [h1]; simp)
        · exact Or.inr (by rw [List.map_cons]; exact List.mem_cons_of_mem _ htm)
      · intro u hu
        rw [List.map_cons] at hu
        rcases List.mem_cons.1 hu with rfl | hum
        · intro hcon
          exact absurd hcon.1 (not_lt.2 het)
        · exact hsil u hum
    · rw [if_neg h] at hfl
      have hde : last + d ≤ e.1 := not_lt.1 h
      rcases List.mem_cons.1 hfl with rfl | hfl2
      · refine ⟨last, Or.inl rfl, rfl, ?_⟩
        intro u hu hcon
        rw [List.map_cons] at hu
        rcases List.mem_cons.1 hu with rfl | hum
        · exact absurd hcon.2 (not_lt.2 hde)
        · obtain ⟨v, hv, rfl⟩ := List.mem_map.1 hum
          exact absurd hcon.2 (not_lt.2 (le_trans hde (helt v hv).le))
      · obtain ⟨t, ht, hfl1, hsil⟩ := ih e.1 [e.2] hpw' helt fl hfl2
        have het : e.1 ≤ t := by
          rcases ht with h1 | htm
          · exact h1.ge
          · obtain ⟨u, hu, rfl⟩ := List.mem_map.1 htm
            exact (helt u hu).le
        refine ⟨t, ?_, hfl1, ?_⟩
        · rcases ht with h1 | htm
          · exact Or.inr (by rw [h1]; simp)
          · exact Or.inr (by rw [List.map_cons]; exact List.mem_cons_of_mem _ htm)
        · intro u hu
          rw [List.map_cons] at hu
          rcases List.mem_cons.1 hu with rfl | hum
          · intro hcon
            exact absurd hcon.1 (not_lt.2 het)
          · exact hsil u hum

/-- The per-scanner filter of a flush's calls counts occurrences of the
scanner id in the batch key. -/
theorem length_filter_flushCalls (scanners : List String) (files : List String)
    (sc : String) :
    ((flushCalls scanners files).filter (fun c => c.scanner == sc)).length
      = (scanners.filter (fun x => x == sc)).length := by
  induction scanners with
  | nil => rfl
  | cons x xs ih =>
    simp only [flushCalls, List.map_cons, List.filter_cons] at *
    cases hx : (x == sc) with
    | true => simpa [hx] using ih
    | false => simpa [hx] using ih

/-- C7: on one batch key with debounce `d` and strictly chronological
matching events, (i) the flush list equals the grouped description: one
flush per maximal run of events separated by less than `d`, at the run's
last event time plus `d`, carrying the run's accumulated (deduplicated)
file list — so no flush separates events within a run; (ii) every flush
time is `t + d` for an event time `t` with no event strictly inside
`(t, t + d)` — at least `d` of silence; (iii) each flush enqueues via
one call per scanner of the batch key, each with source `watcher`,
priority HIGH and the accumulated file list — exactly one call per
scanner when the key's scanner list has no duplicates. -/
theorem claim_C7_debounce_batch (d : Nat) (scanners : List String)
    (events : List (Nat × String))
    (hchrono : List.Pairwise (fun a b => a.1 < b.1) events) :
    allFlushes d events = specFlushes d events ∧
    (∀ fl ∈ allFlushes d events,
      ∃ t : Nat, t ∈ events.map (fun e => e.1) ∧ fl.1 = t + d ∧
        ∀ u ∈ events.map (fun e => e.1), ¬ (t < u ∧ u < t + d)) ∧
    (∀ fl ∈ allFlushes d events,
      (flushCalls scanners fl.2).map (fun c => c.scanner) = scanners ∧
      (∀ c ∈ flushCalls scanners fl.2,
        c.source = TaskSource.watcher ∧ c.priority = HIGH ∧ c.files = some fl.2) ∧
      (scanners.Nodup → ∀ sc ∈ scanners,
        ((flushCalls scanners fl.2).filter (fun c => c.scanner == sc)).length = 1)) := by
  refine ⟨allFlushes_eq_specFlushes d events, ?_, ?_⟩
  · intro fl hfl
    rw [allFlushes_eq_specFlushes] at hfl
    cases events with
    | nil => simp [specFlushes] at hfl
    | cons e rest =>
      rw [specFlushes] at hfl
      have hpw' := (List.pairwise_cons.1 hchrono).2
      have helt := (List.pairwise_cons.1 hchrono).1
      obtain ⟨t, ht, hfl1, hsil⟩ := groupGo_silence d rest e.1 [e.2] hpw' helt fl hfl
      have het : e.1 ≤ t := by
        rcases ht with h1 | htm
        · exact h1.ge
        · obtain ⟨u, hu, rfl⟩ := List.mem_map.1 htm
          exact (helt u hu).le
      refine ⟨t, ?_, hfl1, ?_⟩
      · rcases ht with h1 | htm
        · exact by rw [h1]; simp
        · exact by rw [List.map_cons]; exact List.mem_cons_of_mem _ htm
      · intro u hu
        rw [List.map_cons] at hu
        rcases List.mem_cons.1 hu with rfl | hum
        · intro hcon
          exact absurd hcon.1 (not_lt.2 het)
        · exact hsil u hum
  · intro fl _
    refine ⟨?_, ?_, ?_⟩
    · unfold flushCalls
      rw [List.map_map]
      exact List.map_id _
    · intro c hc
      obtain ⟨sc, -, rfl⟩ := List.mem_map.1 hc
      exact ⟨rfl, rfl, rfl⟩
    · intro hnodup sc hsc
      rw [length_filter_flushCalls]
      rw [← List.countP_eq_length_filter]
      have : scanners.countP (fun x => x == sc) = scanners.count sc := rfl
      rw [this]
      exact List.count_eq_one_of_mem hnodup hsc

/-- Witness for C7: debounce 1000 ms, batch key `["a-scan","b-scan"]`,
events at 0, 500 and 3000 ms — two flushes, at 1500 ms with both files
of the first run and at 4000 ms with the third file. -/
theorem claim_C7_witness :
    allFlushes 1000 [(0, "f1"), (500, "f2"), (3000, "f3")]
      = specFlushes 1000 [(0, "f1"), (500, "f2"), (3000, "f3")] ∧
    allFlushes 1000 [(0, "f1"), (500, "f2"), (3000, "f3")]
      = [(1500, ["f1", "f2"]), (4000, ["f3"])] ∧
    (flushCalls ["a-scan", "b-scan"] ["f1", "f2"]).map (fun c => c.scanner)
      = ["a-scan", "b-scan"] := by
  refine ⟨(claim_C7_debounce_batch 1000 ["a-scan", "b-scan"]
      [(0, "f1"), (500, "f2"), (3000, "f3")] (by decide)).1, by decide, ?_⟩
  exact ((claim_C7_debounce_batch 1000 ["a-scan", "b-scan"]
      [(0, "f1"), (500, "f2"), (3000, "f3")] (by decide)).2.2
    (1500, ["f1", "f2"]) (by decide)).1

/-! ## Task queue (daemon/queue.ts)

The queue is modelled as a labelled transition system.  One JavaScript
event-loop run of `processNext` is split at its `await` points: the
executor program counter distinguishes being outside the loop
(`processing === false`), being at the top of the `while` loop, being
between `expireStaleTasks()` and the pick, and awaiting one scanner run.
Re-entrant `enqueue` calls — from event listeners or timer callbacks —
are the interleaved `enqueue` transitions.  `restore` is a transition of
its own; traces that avoid it (`allowRestore = false`) model runs on a
fresh state file.  `restoredIds` is bookkeeping of the model only: it
records which task ids entered through `restore` and influences no
transition. -/

/-- QueueConfig from daemon/queue.ts; `persist` is carried but queue
persistence itself is file I/O and not modelled. -/
structure QueueConfig where
  maxConcurrent : Nat
  taskTTL : Nat
  persist : Bool
deriving DecidableEq

/-- DEFAULT_QUEUE_CONFIG: `maxConcurrent 1`, TTL one hour. -/
def DEFAULT_QUEUE_CONFIG : QueueConfig :=
  { maxConcurrent := 1, taskTTL := 3600000, persist := true }

/-- Task from daemon/types.ts.  `id` is the UUID (a fresh counter value
in the model), `createdAt`/`startedAt`/`completedAt` are timestamps. -/
structure Task where
  id : Nat
  scanner : String
  priority : Nat
  source : TaskSource
  files : Option (List String)
  createdAt : Nat
  status : TaskStatus
  startedAt : Option Nat
  completedAt : Option Nat
  error : Option String
deriving DecidableEq

/-- The comparator of `TaskQueue.sortQueue`:
`(a, b) => a.priority - b.priority`, i.e. sort by ascending priority. -/
def taskLE (a b : Task) : Prop := a.priority ≤ b.priority

instance : DecidableRel taskLE :=
  fun a b => inferInstanceAs (Decidable (a.priority ≤ b.priority))

/-- `Array.prototype.sort` is a stable sort; insertion sort realises the
same function: sorted by the comparator, ties in original order. -/
def sortQueue (q : List Task) : List Task := List.insertionSort taskLE q

/-- The sort inside `TaskQueue.sameFiles` (any total order sorts both
sides consistently; the code uses `localeCompare`). -/
def sortStrings (l : List String) : List String :=
  List.insertionSort (fun a b : String => a ≤ b) l

/-- `TaskQueue.sameFiles`: both absent ⇒ equal; one absent ⇒ unequal;
otherwise equal lengths and elementwise-equal sorted copies. -/
def sameFiles : Option (List String) → Option (List String) → Bool
  | none, none => true
  | none, some _ => false
  | some _, none => false
  | some a, some b => a.length == b.length && sortStrings a == sortStrings b

/-- The claim's notion of file-set equality: both absent, or both present
with the same paths as multisets. -/
def FilesEq : Option (List String) → Option (List String) → Prop
  | none, none => True
  | some a, some b => (a : Multiset String) = (b : Multiset String)
  | _, _ => False

theorem sortStrings_perm (l : List String) : (sortStrings l).Perm l :=
  List.perm_insertionSort _ l

theorem sortStrings_sorted (l : List String) :
    List.Sorted (fun a b : String => a ≤ b) (sortStrings l) :=
  List.sorted_insertionSort _ l

/-- Sorted copies are equal exactly for permuted lists. -/
theorem sortStrings_eq_iff_perm (a b : List String) :
    sortStrings a = sortStrings b ↔ a.Perm b := by
  constructor
  · intro h
    exact (sortStrings_perm a).symm.trans (h ▸ sortStrings_perm b)
  · intro h
    exact List.eq_of_perm_of_sorted
      ((sortStrings_perm a).trans (h.trans (sortStrings_perm b).symm))
      (sortStrings_sorted a) (sortStrings_sorted b)

/-- `sameFiles` decides exactly the claim's multiset equality of
file-sets. -/
theorem sameFiles_iff_FilesEq (a b : Option (List String)) :
    sameFiles a b = true ↔ FilesEq a b := by
  cases a with
  | none => cases b <;> simp [sameFiles, FilesEq]
  | some la =>
    cases b with
    | none => simp [sameFiles, FilesEq]
    | some lb =>
      simp only [sameFiles, FilesEq, Bool.and_eq_true, beq_iff_eq,
        Multiset.coe_eq_coe, sortStrings_eq_iff_perm]
      exact ⟨fun h => h.2, fun h => ⟨h.length_eq, h⟩⟩

/-- The events of the bus that concern the per-task lifecycle, plus
`scan:completed` (emitted after a successful task). -/
inductive Ev where
  | queued (id : Nat)
  | started (id : Nat)
  | completedE (id : Nat)
  | failedE (id : Nat)
  | expired (id : Nat)
  | scanCompleted
deriving DecidableEq

/-- The lifecycle tags of a single task's trace. -/
inductive EvTag where
  | q
  | s
  | c
  | f
  | e
deriving DecidableEq

/-- The tag an event contributes to the trace of task id `i`. -/
def evFor (i : Nat) : Ev → Option EvTag
  | Ev.queued j => if j = i then some EvTag.q else none
  | Ev.started j => if j = i then some EvTag.s else none
  | Ev.completedE j => if j = i then some EvTag.c else none
  | Ev.failedE j => if j = i then some EvTag.f else none
  | Ev.expired j => if j = i then some EvTag.e else none
  | Ev.scanCompleted => none

/-- The lifecycle trace of task id `i` within an event list. -/
def idTrace (i : Nat) (l : List Ev) : List EvTag := l.filterMap (evFor i)

/-- The executor's program counter: `idle` is `processing === false`;
`loopHead` is the top of the `while` loop; `postExpire` is between
`expireStaleTasks()` and the pick; `awaiting t` is the `await
registry.run` for the started task `t`. -/
inductive ExecPC where
  | idle
  | loopHead
  | postExpire
  | awaiting (t : Task)
deriving DecidableEq

/-- The queue's state: `queue`, `running` (a `Map<scanner, Task>` in
insertion order) and `completed` mirror the class fields; `events` is
the trace emitted so far; `nextId` the UUID counter; `now` the clock;
`restoredIds` the model-only record of ids that entered via `restore`. -/
structure QState where
  queue : List Task
  running : List (String × Task)
  completed : List Task
  exec : ExecPC
  events : List Ev
  nextId : Nat
  now : Nat
  restoredIds : List Nat
deriving DecidableEq

/-- The initial state of a fresh `TaskQueue`. -/
def initState : QState :=
  { queue := [], running := [], completed := [], exec := ExecPC.idle,
    events := [], nextId := 0, now := 0, restoredIds := [] }

/-- `Map.get` on the running map. -/
def lookupRunning (m : List (String × Task)) (k : String) : Option Task :=
  (m.find? (fun p => p.1 == k)).map (fun p => p.2)

/-- `Map.set` on the running map: overwrite in place or append. -/
def setRunning (m : List (String × Task)) (k : String) (v : Task) :
    List (String × Task) :=
  if m.any (fun p => p.1 == k) then m.map (fun p => if p.1 == k then (k, v) else p)
  else m ++ [(k, v)]

/-- `Map.delete` on the running map. -/
def removeRunning (m : List (String × Task)) (k : String) : List (String × Task) :=
  m.filter (fun p => !(p.1 == k))

/-- The task object `TaskQueue.enqueue` builds. -/
def mkNewTask (s : QState) (scanner : String) (source : TaskSource) (priority : Nat)
    (files : Option (List String)) : Task :=
  { id := s.nextId
    scanner := scanner
    priority := priority
    source := source
    files := files
    createdAt := s.now
    status := TaskStatus.queued
    startedAt := none
    completedAt := none
    error := none }

/-- `TaskQueue.enqueue`: drop if an equal-file-set task for the scanner
is already queued, or one is running; otherwise push, re-sort, emit
`task:queued`, and return the fresh id. -/
def enqueueFn (s : QState) (scanner : String) (source : TaskSource) (priority : Nat)
    (files : Option (List String)) : QState × Option Nat :=
  let isDuplicate := s.queue.any (fun t =>
    t.scanner == scanner && decide (t.status = TaskStatus.queued) && sameFiles t.files files)
  if isDuplicate then (s, none)
  else
    let isRunning :=
      match lookupRunning s.running scanner with
      | some rt => sameFiles rt.files files
      | none => false
    if isRunning then (s, none)
    else
      let task := mkNewTask s scanner source priority files
      ({ s with
          queue := sortQueue (s.queue ++ [task]),
          events := s.events ++ [Ev.queued task.id],
          nextId := s.nextId + 1 }, some task.id)

/-- `enqueue` plus its tail: a successful enqueue kicks `processNext`
when no loop is active (`if (!this.processing) void this.processNext()`). -/
def enqueueOp (s : QState) (scanner : String) (source : TaskSource) (priority : Nat)
    (files : Option (List String)) : QState :=
  let r := enqueueFn s scanner source priority files
  if r.2 ≠ none ∧ r.1.exec = ExecPC.idle then { r.1 with exec := ExecPC.loopHead } else r.1

/-- The staleness test of `expireStaleTasks`: queued and older than TTL. -/
def isStale (cfg : QueueConfig) (now : Nat) (t : Task) : Bool :=
  decide (t.status = TaskStatus.queued) && decide (cfg.taskTTL < now - t.createdAt)

/-- `expireStaleTasks`: emit `task:expired` for each stale queued task
(in queue order) and drop them. -/
def expireStale (cfg : QueueConfig) (s : QState) : QState :=
  { s with
    queue := s.queue.filter (fun t => !(isStale cfg s.now t)),
    events := s.events ++ (s.queue.filter (isStale cfg s.now)).map (fun t => Ev.expired t.id) }

/-- The top of the `while` loop of `processNext`: an empty queue ends the
loop (`processing := false` in the `finally`); otherwise
`expireStaleTasks()` runs and control reaches the pick. -/
def loopEnterOp (cfg : QueueConfig) (s : QState) : QState :=
  if s.queue.isEmpty then { s with exec := ExecPC.idle }
  else { expireStale cfg s with exec := ExecPC.postExpire }

/-- The pick of `processNext`: find the first queued task; none ends the
loop, as does the `running.size >= maxConcurrent` check; otherwise the
task moves to `running` with `startedAt = now`, `task:started` is
emitted, and the executor awaits the scanner. -/
def pickOp (cfg : QueueConfig) (s : QState) : QState :=
  match s.queue.findIdx? (fun t => decide (t.status = TaskStatus.queued)) with
  | none => { s with exec := ExecPC.idle }
  | some i =>
    if cfg.maxConcurrent ≤ s.running.length then { s with exec := ExecPC.idle }
    else
      match s.queue[i]? with
      | none => { s with exec := ExecPC.idle }
      | some t0 =>
        let t := { t0 with status := TaskStatus.running, startedAt := some s.now }
        { s with
          queue := s.queue.eraseIdx i,
          running := setRunning s.running t.scanner t,
          events := s.events ++ [Ev.started t.id],
          exec := ExecPC.awaiting t }

/-- `if (this.completed.length > 100) this.completed = this.completed.slice(-50)`. -/
def trimCompleted (l : List Task) : List Task :=
  if 100 < l.length then l.drop (l.length - 50) else l

/-- The scanner invocation returning (`ok`) or throwing (`error msg`):
the task is marked completed/failed, the matching events are emitted
(`task:completed` then `scan:completed`, or `task:failed`), the task
leaves `running` and joins the bounded completion history, and control
returns to the loop head. -/
def finishOp (s : QState) (t : Task) (outcome : Except String Unit) : QState :=
  match outcome with
  | Except.ok _ =>
    let t1 := { t with status := TaskStatus.completed, completedAt := some s.now }
    { s with
      running := removeRunning s.running t.scanner,
      completed := trimCompleted (s.completed ++ [t1]),
      events := s.events ++ [Ev.completedE t.id, Ev.scanCompleted],
      exec := ExecPC.loopHead }
  | Except.error msg =>
    let t1 := { t with
      status := TaskStatus.failed
      completedAt := some s.now
      error := some msg }
    { s with
      running := removeRunning s.running t.scanner,
      completed := trimCompleted (s.completed ++ [t1]),
      events := s.events ++ [Ev.failedE t.id],
      exec := ExecPC.loopHead }

/-- `TaskQueue.restore` on a parsed state file holding `ts`: each task
younger than TTL is re-queued with status `queued` and its original
`createdAt`; the queue is re-sorted; no event is emitted and
`processNext` is not kicked.  The model records the restored ids and
bumps the UUID counter past them. -/
def restoreOp (cfg : QueueConfig) (s : QState) (ts : List Task) : QState :=
  let keep := (ts.filter (fun t => decide (s.now - t.createdAt < cfg.taskTTL))).map
    (fun t => { t with status := TaskStatus.queued })
  { s with
    queue := sortQueue (s.queue ++ keep),
    restoredIds := s.restoredIds ++ keep.map (fun t => t.id),
    nextId := keep.foldl (fun acc t => max acc (t.id + 1)) s.nextId }

/-- The queue's transition relation.  `allowRestore` selects whether the
`restore` transition may occur; `restore` carries the freshness facts
that UUIDs provide for free. -/
inductive Step (cfg : QueueConfig) : Bool → QState → QState → Prop where
  | enqueue (b : Bool) (s : QState) (scanner : String) (source : TaskSource)
      (priority : Nat) (files : Option (List String)) :
      Step cfg b s (enqueueOp s scanner source priority files)
  | restoreStep (s : QState) (ts : List Task)
      (hfresh : ∀ t ∈ ts, s.nextId ≤ t.id)
      (hnodup : (ts.map (fun t => t.id)).Nodup) :
      Step cfg true s (restoreOp cfg s ts)
  | loopEnter (b : Bool) (s : QState) (h : s.exec = ExecPC.loopHead) :
      Step cfg b s (loopEnterOp cfg s)
  | pick (b : Bool) (s : QState) (h : s.exec = ExecPC.postExpire) :
      Step cfg b s (pickOp cfg s)
  | finish (b : Bool) (s : QState) (t : Task) (outcome : Except String Unit)
      (h : s.exec = ExecPC.awaiting t) :
      Step cfg b s (finishOp s t outcome)
  | tick (b : Bool) (s : QState) (d : Nat) :
      Step cfg b s { s with now := s.now + d }

/-- Reachability from the fresh queue. -/
def Reach (cfg : QueueConfig) (b : Bool) (s : QState) : Prop :=
  Relation.ReflTransGen (Step cfg b) initState s

/-! Trace bookkeeping lemmas. -/

theorem idTrace_append (i : Nat) (l1 l2 : List Ev) :
    idTrace i (l1 ++ l2) = idTrace i l1 ++ idTrace i l2 :=
  List.filterMap_append l1 l2 (evFor i)

theorem idTrace_single (i : Nat) (ev : Ev) :
    idTrace i [ev] = ((evFor i ev).map (fun tg => [tg])).getD [] := by
  cases h : evFor i ev <;> simp [idTrace, h]

theorem idTrace_expired_map_not_mem (i : Nat) (l : List Task)
    (h : i ∉ l.map (fun t => t.id)) :
    idTrace i (l.map (fun t => Ev.expired t.id)) = [] := by
  induction l with
  | nil => rfl
  | cons t l ih =>
    have hne : t.id ≠ i := by
      intro he
      exact h (by simp [he])
    simp only [List.map_cons]
    rw [show (Ev.expired t.id :: l.map (fun t => Ev.expired t.id))
        = [Ev.expired t.id] ++ l.map (fun t => Ev.expired t.id) from rfl,
      idTrace_append, idTrace_single]
    simp only [evFor, if_neg hne]
    exact ih (fun hm => h (List.mem_cons_of_mem _ hm))

theorem idTrace_expired_map_mem (i : Nat) (l : List Task)
    (hn : (l.map (fun t => t.id)).Nodup) (h : i ∈ l.map (fun t => t.id)) :
    idTrace i (l.map (fun t => Ev.expired t.id)) = [EvTag.e] := by
  induction l with
  | nil => simp at h
  | cons t l ih =>
    simp only [List.map_cons, List.nodup_cons] at hn
    simp only [List.map_cons] at h ⊢
    rw [show (Ev.expired t.id :: l.map (fun t => Ev.expired t.id))
        = [Ev.expired t.id] ++ l.map (fun t => Ev.expired t.id) from rfl,
      idTrace_append, idTrace_single]
    rcases List.mem_cons.1 h with h1 | hm
    · simp only [evFor, if_pos h1.symm]
      rw [idTrace_expired_map_not_mem i l (by rw [h1]; exact hn.1)]
      rfl
    · have hne : t.id ≠ i := by
        intro he
        exact hn.1 (he ▸ hm)
      simp only [evFor, if_neg hne]
      simpa using ih hn.2 hm

/-! Sorting facts. -/

theorem sortQueue_perm (l : List Task) : (sortQueue l).Perm l :=
  List.perm_insertionSort _ l

theorem mem_sortQueue {t : Task} {l : List Task} : t ∈ sortQueue l ↔ t ∈ l :=
  (sortQueue_perm l).mem_iff

theorem map_sortQueue_perm {β : Type} (f : Task → β) (l : List Task) :
    ((sortQueue l).map f).Perm (l.map f) :=
  (sortQueue_perm l).map f

/-! The lifecycle invariant. -/

/-- The ids of the queued tasks. -/
def queueIds (s : QState) : List Nat := s.queue.map (fun t => t.id)

/-- The traces a finished (or never-seen) restored id can show. -/
def doneTracesR : List (List EvTag) :=
  [[], [EvTag.e], [EvTag.s, EvTag.c], [EvTag.s, EvTag.f]]

/-- The traces a finished (or never-seen) enqueue-created id can show. -/
def doneTracesQ : List (List EvTag) :=
  [[], [EvTag.q, EvTag.e], [EvTag.q, EvTag.s, EvTag.c], [EvTag.q, EvTag.s, EvTag.f]]

/-- The executor/running-map invariant: exactly the awaited task is in
the running map, and its trace so far ends in `started`. -/
def ExecInv (s : QState) : Prop :=
  match s.exec with
  | ExecPC.awaiting t =>
    s.running = [(t.scanner, t)] ∧ t.id < s.nextId ∧ t.id ∉ queueIds s ∧
    idTrace t.id s.events
      = (if t.id ∈ s.restoredIds then [EvTag.s] else [EvTag.q, EvTag.s])
  | _ => s.running = []

/-- The inductive lifecycle invariant of the queue machine. -/
def Inv (s : QState) : Prop :=
  (∀ t ∈ s.queue, t.status = TaskStatus.queued ∧ t.id < s.nextId ∧
     idTrace t.id s.events = (if t.id ∈ s.restoredIds then [] else [EvTag.q])) ∧
  ExecInv s ∧
  (queueIds s).Nodup ∧
  (∀ i : Nat, i ∉ queueIds s → (∀ t : Task, s.exec = ExecPC.awaiting t → t.id ≠ i) →
     (i ∈ s.restoredIds → idTrace i s.events ∈ doneTracesR) ∧
     (i ∉ s.restoredIds → idTrace i s.events ∈ doneTracesQ)) ∧
  (∀ i : Nat, s.nextId ≤ i → idTrace i s.events = [] ∧ i ∉ s.restoredIds)

theorem inv_initState : Inv initState := by
  refine ⟨?_, ?_, ?_, ?_, ?_⟩
  · intro t ht
    exact absurd ht (List.not_mem_nil t)
  · exact rfl
  · exact List.nodup_nil
  · intro i _ _
    refine ⟨fun h => absurd h (List.not_mem_nil i), fun _ => ?_⟩
    show ([] : List EvTag) ∈ doneTracesQ
    decide
  · intro i _
    exact ⟨rfl, List.not_mem_nil i⟩

/-- Advancing the clock preserves the invariant. -/
theorem inv_tick (s : QState) (d : Nat) (h : Inv s) :
    Inv { s with now := s.now + d } := by
  obtain ⟨hA, hB, hC, hD, hF⟩ := h
  refine ⟨hA, ?_, hC, hD, hF⟩
  unfold ExecInv at hB ⊢
  exact hB

/-- Kicking the executor (`idle → loopHead`) preserves the invariant. -/
theorem inv_kick (s : QState) (h : Inv s) (hex : s.exec = ExecPC.idle) :
    Inv { s with exec := ExecPC.loopHead } := by
  obtain ⟨hA, hB, hC, hD, hF⟩ := h
  refine ⟨hA, ?_, hC, ?_, hF⟩
  · unfold ExecInv at hB ⊢
    rw [hex] at hB
    exact hB
  · intro i hi _
    refine hD i hi ?_
    intro t ht
    rw [hex] at ht
    exact absurd ht (by simp)

/-- `enqueueFn` either returns the unchanged state with `null`, or pushes
exactly the fresh task. -/
theorem enqueueFn_none_or (s : QState) (scanner : String) (source : TaskSource)
    (priority : Nat) (files : Option (List String)) :
    enqueueFn s scanner source priority files = (s, none) ∨
    enqueueFn s scanner source priority files =
      ({ s with
          queue := sortQueue (s.queue ++ [mkNewTask s scanner source priority files]),
          events := s.events ++ [Ev.queued s.nextId],
          nextId := s.nextId + 1 }, some s.nextId) := by
  unfold enqueueFn
  by_cases h1 : (s.queue.any (fun t =>
      t.scanner == scanner && decide (t.status = TaskStatus.queued)
        && sameFiles t.files files)) = true
  · left
    simp [h1]
  · by_cases h2 : (match lookupRunning s.running scanner with
      | some rt => sameFiles rt.files files
      | none => false) = true
    · left
      simp [h1, h2]
    · right
      simp [h1, h2, mkNewTask]

/-- A conditional kick (`idle → loopHead`) preserves the invariant. -/
theorem inv_ite_kick (s1 : QState) (c : Prop) [Decidable c] (h : Inv s1)
    (hc : c → s1.exec = ExecPC.idle) :
    Inv (if c then { s1 with exec := ExecPC.loopHead } else s1) := by
  split
  next hcc => exact inv_kick s1 h (hc hcc)
  next => exact h

/-- An `enqueue` call preserves the invariant. -/
theorem inv_enqueueOp (s : QState) (scanner : String) (source : TaskSource)
    (priority : Nat) (files : Option (List String)) (h : Inv s) :
    Inv (enqueueOp s scanner source priority files) := by
  unfold enqueueOp
  rcases enqueueFn_none_or s scanner source priority files with he | he
  · rw [he]
    simp only [ne_eq, not_true_eq_false, false_and, if_false]
    exact h
  · rw [he]
    obtain ⟨hA, hB, hC, hD, hF⟩ := h
    set x := mkNewTask s scanner source priority files with hxdef
    have hxid : x.id = s.nextId := rfl
    have hxfresh := hF s.nextId (le_refl _)
    have hqueue1 : ∀ t : Task, t ∈ sortQueue (s.queue ++ [x]) ↔ t ∈ s.queue ∨ t = x := by
      intro t
      rw [mem_sortQueue, List.mem_append, List.mem_singleton]
    have hids : (sortQueue (s.queue ++ [x])).map (fun t => t.id)
        = (sortQueue (s.queue ++ [x])).map (fun t => t.id) := rfl
    have hidsperm : ((sortQueue (s.queue ++ [x])).map (fun t => t.id)).Perm
        ((s.queue ++ [x]).map (fun t => t.id)) := map_sortQueue_perm _ _
    have hmemid : ∀ i : Nat, i ∈ (sortQueue (s.queue ++ [x])).map (fun t => t.id)
        ↔ i ∈ queueIds s ∨ i = s.nextId := by
      intro i
      rw [hidsperm.mem_iff, List.map_append, List.mem_append]
      simp [queueIds, hxid]
    have hs1 : Inv { s with
        queue := sortQueue (s.queue ++ [x]),
        events := s.events ++ [Ev.queued s.nextId],
        nextId := s.nextId + 1 } := by
      refine ⟨?_, ?_, ?_, ?_, ?_⟩
      · intro t ht
        rcases (hqueue1 t).1 ht with hold | rfl
        · obtain ⟨hst, hlt, htr⟩ := hA t hold
          have hne : s.nextId ≠ t.id := fun hcon => absurd (hcon ▸ hlt) (lt_irrefl _)
          refine ⟨hst, Nat.lt_succ_of_lt hlt, ?_⟩
          rw [idTrace_append, idTrace_single]
          simp only [evFor, if_neg hne]
          simpa using htr
        · refine ⟨rfl, by rw [hxid]; exact Nat.lt_succ_self _, ?_⟩
          rw [idTrace_append, idTrace_single, hxid]
          simp only [evFor, if_pos rfl]
          rw [hxfresh.1]
          simp [hxfresh.2]
      · unfold ExecInv at hB ⊢
        cases hex : s.exec with
        | awaiting t =>
          rw [hex] at hB
          obtain ⟨hrun, hlt, hnq, htr⟩ := hB
          have hne : s.nextId ≠ t.id := fun hcon => absurd (hcon ▸ hlt) (lt_irrefl _)
          refine ⟨hrun, Nat.lt_succ_of_lt hlt, ?_, ?_⟩
          · intro hmem
            rcases (hmemid t.id).1 hmem with hold | heq
            · exact hnq hold
            · exact hne heq.symm
          · rw [idTrace_append, idTrace_single]
            simp only [evFor, if_neg hne]
            simpa using htr
        | idle => rw [hex] at hB; exact hB
        | loopHead => rw [hex] at hB; exact hB
        | postExpire => rw [hex] at hB; exact hB
      · show ((sortQueue (s.queue ++ [x])).map (fun t => t.id)).Nodup
        rw [hidsperm.nodup_iff, List.map_append]
        rw [List.nodup_append]
        refine ⟨hC, by simp, ?_⟩
        intro i hi hj
        simp only [List.map_cons, List.map_nil, List.mem_singleton, hxid] at hj
        obtain ⟨t, ht, rfl⟩ := List.mem_map.1 hi
        exact absurd ((hj ▸ (hA t ht).2.1 : t.id < t.id)) (lt_irrefl _)
      · intro i hi haw
        have hi' : i ∉ queueIds s := fun hc => hi ((hmemid i).2 (Or.inl hc))
        have hne : s.nextId ≠ i := fun hc => hi ((hmemid i).2 (Or.inr hc.symm))
        have := hD i hi' (by
          intro t ht
          exact haw t ht)
        rw [idTrace_append, idTrace_single]
        simp only [evFor, if_neg hne]
        simpa using this
      · intro i hle
        have hle' : s.nextId ≤ i := le_trans (Nat.le_succ _) hle
        have hne : s.nextId ≠ i := fun hc => absurd (hc ▸ hle) (by simp)
        refine ⟨?_, (hF i hle').2⟩
        rw [idTrace_append, idTrace_single]
        simp only [evFor, if_neg hne]
        simpa using (hF i hle').1
    exact inv_ite_kick _ _ hs1 (fun hc => hc.2)

/-- A transition from a non-awaiting pc to another non-awaiting pc that
only changes `exec` preserves the invariant. -/
theorem inv_exec_change (s : QState) (e : ExecPC) (h : Inv s)
    (hold : ∀ t : Task, s.exec ≠ ExecPC.awaiting t)
    (hnew : ∀ t : Task, e ≠ ExecPC.awaiting t) :
    Inv { s with exec := e } := by
  obtain ⟨hA, hB, hC, hD, hF⟩ := h
  refine ⟨hA, ?_, hC, ?_, hF⟩
  · unfold ExecInv at hB ⊢
    cases hex : s.exec with
    | awaiting t => exact absurd hex (hold t)
    | idle =>
      rw [hex] at hB
      cases e with
      | awaiting t => exact absurd rfl (hnew t)
      | idle => exact hB
      | loopHead => exact hB
      | postExpire => exact hB
    | loopHead =>
      rw [hex] at hB
      cases e with
      | awaiting t => exact absurd rfl (hnew t)
      | idle => exact hB
      | loopHead => exact hB
      | postExpire => exact hB
    | postExpire =>
      rw [hex] at hB
      cases e with
      | awaiting t => exact absurd rfl (hnew t)
      | idle => exact hB
      | loopHead => exact hB
      | postExpire => exact hB
  · intro i hi _
    exact hD i hi (fun t ht => absurd ht (hold t))

/-- Distinct tasks of a queue with `Nodup` ids have distinct ids. -/
theorem queue_id_inj {s : QState} (hC : (queueIds s).Nodup) {t1 t2 : Task}
    (h1 : t1 ∈ s.queue) (h2 : t2 ∈ s.queue) (he : t1.id = t2.id) : t1 = t2 := by
  have hC' : (s.queue.map (fun t => t.id)).Nodup := hC
  exact List.inj_on_of_nodup_map hC' h1 h2 he

/-- Entering the `while` loop (empty-queue exit or expiry) preserves the
invariant. -/
theorem inv_loopEnterOp (cfg : QueueConfig) (s : QState) (h : Inv s)
    (hex : s.exec = ExecPC.loopHead) : Inv (loopEnterOp cfg s) := by
  unfold loopEnterOp
  split
  · exact inv_exec_change s ExecPC.idle h
      (fun t ht => by rw [hex] at ht; exact absurd ht (by simp))
      (fun t => by simp)
  · obtain ⟨hA, hB, hC, hD, hF⟩ := h
    have hstale_sub : (s.queue.filter (isStale cfg s.now)).Sublist s.queue :=
      List.filter_sublist s.queue
    have hkeep_sub : (s.queue.filter (fun t => !(isStale cfg s.now t))).Sublist s.queue :=
      List.filter_sublist s.queue
    have hC' : (s.queue.map (fun t => t.id)).Nodup := hC
    have hstale_ids_nodup :
        ((s.queue.filter (isStale cfg s.now)).map (fun t => t.id)).Nodup :=
      (hstale_sub.map (fun t => t.id)).nodup hC'
    have hkeep_ids_nodup :
        ((s.queue.filter (fun t => !(isStale cfg s.now t))).map (fun t => t.id)).Nodup :=
      (hkeep_sub.map (fun t => t.id)).nodup hC'
    have hdisj : ∀ i : Nat,
        i ∈ (s.queue.filter (isStale cfg s.now)).map (fun t => t.id) →
        i ∉ (s.queue.filter (fun t => !(isStale cfg s.now t))).map (fun t => t.id) := by
      intro i his hik
      obtain ⟨t1, ht1, rfl⟩ := List.mem_map.1 his
      obtain ⟨t2, ht2, he2⟩ := List.mem_map.1 hik
      rw [List.mem_filter] at ht1 ht2
      have := queue_id_inj hC ht2.1 ht1.1 he2
      rw [this] at ht2
      rw [ht1.2] at ht2
      exact absurd ht2.2 (by simp)
    have hstale_ids_lt : ∀ i : Nat,
        i ∈ (s.queue.filter (isStale cfg s.now)).map (fun t => t.id) → i < s.nextId := by
      intro i his
      obtain ⟨t1, ht1, rfl⟩ := List.mem_map.1 his
      exact (hA t1 (List.mem_filter.1 ht1).1).2.1
    refine ⟨?_, ?_, ?_, ?_, ?_⟩
    · intro t ht
      have ht' : t ∈ s.queue := (List.mem_filter.1 ht).1
      obtain ⟨hst, hlt, htr⟩ := hA t ht'
      refine ⟨hst, hlt, ?_⟩
      show idTrace t.id (s.events ++ _) = _
      rw [idTrace_append, idTrace_expired_map_not_mem t.id _
        (fun hm => hdisj t.id hm (List.mem_map_of_mem (fun t => t.id) ht))]
      simpa using htr
    · show ExecInv _
      unfold ExecInv
      have : ({ expireStale cfg s with exec := ExecPC.postExpire } : QState).exec
          = ExecPC.postExpire := rfl
      rw [this]
      unfold ExecInv at hB
      rw [hex] at hB
      exact hB
    · exact hkeep_ids_nodup
    · intro i hi _
      rw [show ({ expireStale cfg s with exec := ExecPC.postExpire } : QState).events
          = s.events ++ (s.queue.filter (isStale cfg s.now)).map (fun t => Ev.expired t.id)
          from rfl,
        show ({ expireStale cfg s with exec := ExecPC.postExpire } : QState).restoredIds
          = s.restoredIds from rfl]
      by_cases his : i ∈ (s.queue.filter (isStale cfg s.now)).map (fun t => t.id)
      · obtain ⟨t1, ht1, rfl⟩ := List.mem_map.1 his
        obtain ⟨hst, hlt, htr⟩ := hA t1 (List.mem_filter.1 ht1).1
        have htr' : idTrace t1.id (s.events
            ++ (s.queue.filter (isStale cfg s.now)).map (fun t => Ev.expired t.id))
            = (if t1.id ∈ s.restoredIds then [] else [EvTag.q]) ++ [EvTag.e] := by
          rw [idTrace_append, htr, idTrace_expired_map_mem _ _ hstale_ids_nodup his]
        constructor
        · intro hres
          show idTrace t1.id _ ∈ doneTracesR
          rw [htr', if_pos hres]
          decide
        · intro hres
          show idTrace t1.id _ ∈ doneTracesQ
          rw [htr', if_neg hres]
          decide
      · have hiq : i ∉ queueIds s := by
          intro hq
          obtain ⟨t1, ht1, rfl⟩ := List.mem_map.1 hq
          by_cases hstl : isStale cfg s.now t1 = true
          · exact his (List.mem_map_of_mem _ (List.mem_filter.2 ⟨ht1, hstl⟩))
          · exact hi (List.mem_map_of_mem _ (List.mem_filter.2 ⟨ht1, by simp [hstl]⟩))
        have hold := hD i hiq (fun t ht => by rw [hex] at ht; exact absurd ht (by simp))
        have htreq : idTrace i (s.events
            ++ (s.queue.filter (isStale cfg s.now)).map (fun t => Ev.expired t.id))
            = idTrace i s.events := by
          rw [idTrace_append, idTrace_expired_map_not_mem i _ his]
          simp
        rw [htreq]
        exact hold
    · intro i hle
      have hnes : i ∉ (s.queue.filter (isStale cfg s.now)).map (fun t => t.id) := by
        intro hm
        exact absurd (hstale_ids_lt i hm) (not_lt.2 hle)
      refine ⟨?_, (hF i hle).2⟩
      show idTrace i (s.events ++ _) = []
      rw [idTrace_append, idTrace_expired_map_not_mem i _ hnes, (hF i hle).1]
      rfl

/-- Under the invariant, the pick finds the queue's head (every queued
entry satisfies the status test). -/
theorem findIdx?_queue (s : QState)
    (hA : ∀ t ∈ s.queue, t.status = TaskStatus.queued) :
    s.queue.findIdx? (fun t => decide (t.status = TaskStatus.queued))
      = if s.queue.isEmpty then none else some 0 := by
  cases hq : s.queue with
  | nil => rfl
  | cons t0 rest =>
    rw [List.findIdx?_cons]
    rw [if_pos (by simp [hA t0 (hq ▸ List.mem_cons_self t0 rest)])]
    rfl

/-- The pick transition preserves the invariant. -/
theorem inv_pickOp (cfg : QueueConfig) (s : QState) (h : Inv s)
    (hex : s.exec = ExecPC.postExpire) : Inv (pickOp cfg s) := by
  obtain ⟨hA, hB, hC, hD, hF⟩ := h
  have hBrun : s.running = [] := by
    unfold ExecInv at hB
    rw [hex] at hB
    exact hB
  have hnotaw : ∀ t : Task, s.exec ≠ ExecPC.awaiting t := by
    intro t ht
    rw [hex] at ht
    exact absurd ht (by simp)
  unfold pickOp
  rw [findIdx?_queue s (fun t ht => (hA t ht).1)]
  by_cases hqe : s.queue.isEmpty = true
  · rw [if_pos hqe]
    exact inv_exec_change s ExecPC.idle ⟨hA, hB, hC, hD, hF⟩ hnotaw (fun t => by simp)
  · rw [if_neg hqe]
    change Inv (if cfg.maxConcurrent ≤ s.running.length then _ else _)
    by_cases hlim : cfg.maxConcurrent ≤ s.running.length
    · rw [if_pos hlim]
      exact inv_exec_change s ExecPC.idle ⟨hA, hB, hC, hD, hF⟩ hnotaw (fun t => by simp)
    · rw [if_neg hlim]
      obtain ⟨t0, rest, hq⟩ : ∃ t0 rest, s.queue = t0 :: rest := by
        cases hqm : s.queue with
        | nil => rw [hqm] at hqe; exact absurd rfl hqe
        | cons a l => exact ⟨a, l, rfl⟩
      rw [hq, hBrun, List.getElem?_cons_zero]
      obtain ⟨hst0, hlt0, htr0⟩ := hA t0 (hq ▸ List.mem_cons_self t0 rest)
      have hCc : (t0.id :: rest.map (fun t => t.id)).Nodup := by
        have : (queueIds s).Nodup := hC
        rw [queueIds, hq, List.map_cons] at this
        exact this
      have hC0 : t0.id ∉ rest.map (fun t => t.id) := (List.nodup_cons.1 hCc).1
      have hCr : (rest.map (fun t => t.id)).Nodup := (List.nodup_cons.1 hCc).2
      show Inv { s with
        queue := rest
        running := [(t0.scanner, { t0 with status := TaskStatus.running, startedAt := some s.now })]
        events := s.events ++ [Ev.started t0.id]
        exec := ExecPC.awaiting { t0 with status := TaskStatus.running, startedAt := some s.now } }
      refine ⟨?_, ?_, ?_, ?_, ?_⟩
      · intro u hu
        have hu2 : u ∈ s.queue := hq ▸ List.mem_cons_of_mem t0 hu
        obtain ⟨hst, hlt, htr⟩ := hA u hu2
        have hne : t0.id ≠ u.id := by
          intro he
          exact hC0 (he ▸ List.mem_map_of_mem _ hu)
        refine ⟨hst, hlt, ?_⟩
        show idTrace u.id (s.events ++ [Ev.started t0.id]) = _
        rw [idTrace_append, idTrace_single]
        simp only [evFor, if_neg hne]
        simpa using htr
      · show ExecInv _
        unfold ExecInv
        refine ⟨rfl, hlt0, ?_, ?_⟩
        · show t0.id ∉ rest.map (fun t => t.id)
          exact hC0
        · show idTrace t0.id (s.events ++ [Ev.started t0.id]) = _
          rw [idTrace_append, idTrace_single]
          simp only [evFor, if_pos rfl]
          rw [htr0]
          by_cases hres : t0.id ∈ s.restoredIds
          · rw [if_pos hres, if_pos hres]
            rfl
          · rw [if_neg hres, if_neg hres]
            rfl
      · exact hCr
      · intro i hi haw
        have hne : t0.id ≠ i :=
          haw { t0 with status := TaskStatus.running, startedAt := some s.now } rfl
        have hiq : i ∉ queueIds s := by
          rw [queueIds, hq, List.map_cons]
          intro hm
          rcases List.mem_cons.1 hm with he | hm2
          · exact hne he.symm
          · exact hi hm2
        have hold := hD i hiq (fun t ht => absurd ht (hnotaw t))
        have htreq : idTrace i (s.events ++ [Ev.started t0.id]) = idTrace i s.events := by
          rw [idTrace_append, idTrace_single]
          simp only [evFor, if_neg hne]
          simp
        show (i ∈ s.restoredIds → idTrace i (s.events ++ [Ev.started t0.id]) ∈ doneTracesR)
          ∧ (i ∉ s.restoredIds → idTrace i (s.events ++ [Ev.started t0.id]) ∈ doneTracesQ)
        rw [htreq]
        exact hold
      · intro i hle
        have hne : t0.id ≠ i := by
          intro he
          exact absurd (he ▸ hlt0) (not_lt.2 hle)
        refine ⟨?_, (hF i hle).2⟩
        show idTrace i (s.events ++ [Ev.started t0.id]) = []
        rw [idTrace_append, idTrace_single]
        simp only [evFor, if_neg hne]
        rw [(hF i hle).1]
        rfl

/-- The common part of the two finish branches: appending events that
all carry the awaited task's id (or no id) preserves the invariant. -/
theorem inv_finish_common (s : QState) (t : Task) (suffix : List Ev)
    (hA : ∀ u ∈ s.queue, u.status = TaskStatus.queued ∧ u.id < s.nextId ∧
      idTrace u.id s.events = (if u.id ∈ s.restoredIds then [] else [EvTag.q]))
    (hB : ExecInv s) (hC : (queueIds s).Nodup)
    (hD : ∀ i : Nat, i ∉ queueIds s →
      (∀ u : Task, s.exec = ExecPC.awaiting u → u.id ≠ i) →
      (i ∈ s.restoredIds → idTrace i s.events ∈ doneTracesR) ∧
      (i ∉ s.restoredIds → idTrace i s.events ∈ doneTracesQ))
    (hF : ∀ i : Nat, s.nextId ≤ i → idTrace i s.events = [] ∧ i ∉ s.restoredIds)
    (hex : s.exec = ExecPC.awaiting t)
    (hsuf_ne : ∀ i : Nat, t.id ≠ i → idTrace i suffix = [])
    (hsuf_done : (t.id ∈ s.restoredIds →
        [EvTag.s] ++ idTrace t.id suffix ∈ doneTracesR) ∧
      (t.id ∉ s.restoredIds → [EvTag.q, EvTag.s] ++ idTrace t.id suffix ∈ doneTracesQ))
    (completed1 : List Task) :
    Inv { s with
      running := removeRunning s.running t.scanner
      completed := completed1
      events := s.events ++ suffix
      exec := ExecPC.loopHead } := by
  unfold ExecInv at hB
  rw [hex] at hB
  obtain ⟨hrun, hlt, hnq, htr⟩ := hB
  refine ⟨?_, ?_, ?_, ?_, ?_⟩
  · intro u hu
    obtain ⟨hst, hltu, htru⟩ := hA u hu
    have hne : t.id ≠ u.id := by
      intro he
      exact hnq (he ▸ List.mem_map_of_mem _ hu)
    refine ⟨hst, hltu, ?_⟩
    show idTrace u.id (s.events ++ suffix) = _
    rw [idTrace_append, hsuf_ne u.id hne, htru]
    simp
  · show ExecInv _
    unfold ExecInv
    show removeRunning s.running t.scanner = []
    rw [hrun]
    unfold removeRunning
    simp
  · exact hC
  · intro i hi _
    by_cases hit : t.id = i
    · subst hit
      constructor
      · intro hres
        show idTrace t.id (s.events ++ suffix) ∈ doneTracesR
        rw [idTrace_append, htr, if_pos hres]
        exact hsuf_done.1 hres
      · intro hres
        show idTrace t.id (s.events ++ suffix) ∈ doneTracesQ
        rw [idTrace_append, htr, if_neg hres]
        exact hsuf_done.2 hres
    · have hold := hD i hi (fun u hu => by
        rw [hex] at hu
        rw [← ExecPC.awaiting.inj hu]
        exact hit)
      have htreq : idTrace i (s.events ++ suffix) = idTrace i s.events := by
        rw [idTrace_append, hsuf_ne i hit]
        simp
      show (i ∈ s.restoredIds → idTrace i (s.events ++ suffix) ∈ doneTracesR)
        ∧ (i ∉ s.restoredIds → idTrace i (s.events ++ suffix) ∈ doneTracesQ)
      rw [htreq]
      exact hold
  · intro i hle
    have hne : t.id ≠ i := by
      intro he
      exact absurd (he ▸ hlt) (not_lt.2 hle)
    refine ⟨?_, (hF i hle).2⟩
    show idTrace i (s.events ++ suffix) = []
    rw [idTrace_append, hsuf_ne i hne, (hF i hle).1]
    rfl

/-- The finish transition preserves the invariant. -/
theorem inv_finishOp (s : QState) (t : Task) (outcome : Except String Unit)
    (h : Inv s) (hex : s.exec = ExecPC.awaiting t) : Inv (finishOp s t outcome) := by
  obtain ⟨hA, hB, hC, hD, hF⟩ := h
  unfold finishOp
  cases outcome with
  | ok u =>
    cases u
    exact inv_finish_common s t [Ev.completedE t.id, Ev.scanCompleted] hA hB hC hD hF hex
      (by
        intro i hne
        show idTrace i [Ev.completedE t.id, Ev.scanCompleted] = []
        rw [show ([Ev.completedE t.id, Ev.scanCompleted] : List Ev)
            = [Ev.completedE t.id] ++ [Ev.scanCompleted] from rfl,
          idTrace_append, idTrace_single, idTrace_single]
        simp [evFor, hne])
      (by
        have hone : idTrace t.id [Ev.completedE t.id, Ev.scanCompleted] = [EvTag.c] := by
          rw [show ([Ev.completedE t.id, Ev.scanCompleted] : List Ev)
              = [Ev.completedE t.id] ++ [Ev.scanCompleted] from rfl,
            idTrace_append, idTrace_single, idTrace_single]
          simp [evFor]
        rw [hone]
        exact ⟨fun _ => by decide, fun _ => by decide⟩)
      (trimCompleted (s.completed
        ++ [{ t with status := TaskStatus.completed, completedAt := some s.now }]))
  | error msg =>
    exact inv_finish_common s t [Ev.failedE t.id] hA hB hC hD hF hex
      (by
        intro i hne
        rw [idTrace_single]
        simp [evFor, hne])
      (by
        have hone : idTrace t.id [Ev.failedE t.id] = [EvTag.f] := by
          rw [idTrace_single]
          simp [evFor]
        rw [hone]
        exact ⟨fun _ => by decide, fun _ => by decide⟩)
      (trimCompleted (s.completed ++ [{ t with
        status := TaskStatus.failed
        completedAt := some s.now
        error := some msg }]))

theorem foldl_max_le_init : ∀ (l : List Task) (acc : Nat),
    acc ≤ l.foldl (fun a t => max a (t.id + 1)) acc := by
  intro l
  induction l with
  | nil => intro acc; exact le_refl acc
  | cons t l ih =>
    intro acc
    exact le_trans (le_max_left acc (t.id + 1)) (ih (max acc (t.id + 1)))

theorem foldl_max_mem : ∀ (l : List Task) (acc : Nat) (t : Task), t ∈ l →
    t.id < l.foldl (fun a t => max a (t.id + 1)) acc := by
  intro l
  induction l with
  | nil => intro acc t ht; exact absurd ht (List.not_mem_nil t)
  | cons u l ih =>
    intro acc t ht
    rcases List.mem_cons.1 ht with rfl | hm
    · calc t.id < t.id + 1 := Nat.lt_succ_self _
        _ ≤ max acc (t.id + 1) := le_max_right _ _
        _ ≤ _ := foldl_max_le_init l _
    · exact ih _ t hm

/-- The restore transition preserves the invariant (given the freshness
of the restored UUIDs). -/
theorem inv_restoreOp (cfg : QueueConfig) (s : QState) (ts : List Task) (h : Inv s)
    (hfresh : ∀ t ∈ ts, s.nextId ≤ t.id)
    (hnodup : (ts.map (fun t => t.id)).Nodup) : Inv (restoreOp cfg s ts) := by
  obtain ⟨hA, hB, hC, hD, hF⟩ := h
  unfold restoreOp
  set keep := (ts.filter (fun t => decide (s.now - t.createdAt < cfg.taskTTL))).map
    (fun t => { t with status := TaskStatus.queued }) with hkeepdef
  have hkid : keep.map (fun t => t.id)
      = (ts.filter (fun t => decide (s.now - t.createdAt < cfg.taskTTL))).map
        (fun t => t.id) := by
    rw [hkeepdef, List.map_map]
    rfl
  have hkid_nodup : (keep.map (fun t => t.id)).Nodup := by
    rw [hkid]
    exact ((List.filter_sublist ts).map (fun t => t.id)).nodup hnodup
  have hkid_fresh : ∀ i ∈ keep.map (fun t => t.id), s.nextId ≤ i := by
    intro i hi
    rw [hkid] at hi
    obtain ⟨w, hw, rfl⟩ := List.mem_map.1 hi
    exact hfresh w (List.mem_filter.1 hw).1
  have hnext : s.nextId ≤ keep.foldl (fun a t => max a (t.id + 1)) s.nextId :=
    foldl_max_le_init keep s.nextId
  have hkeep_lt : ∀ t ∈ keep, t.id < keep.foldl (fun a t => max a (t.id + 1)) s.nextId :=
    fun t ht => foldl_max_mem keep s.nextId t ht
  have hkeep_status : ∀ t ∈ keep, t.status = TaskStatus.queued := by
    intro t ht
    rw [hkeepdef] at ht
    obtain ⟨w, _, rfl⟩ := List.mem_map.1 ht
    rfl
  have hmemq : ∀ u : Task, u ∈ sortQueue (s.queue ++ keep) ↔ u ∈ s.queue ∨ u ∈ keep := by
    intro u
    rw [mem_sortQueue, List.mem_append]
  have hqperm : ((sortQueue (s.queue ++ keep)).map (fun t => t.id)).Perm
      (s.queue.map (fun t => t.id) ++ keep.map (fun t => t.id)) := by
    have := map_sortQueue_perm (fun t : Task => t.id) (s.queue ++ keep)
    rw [List.map_append] at this
    exact this
  have hmemid : ∀ i : Nat, i ∈ (sortQueue (s.queue ++ keep)).map (fun t => t.id)
      ↔ i ∈ queueIds s ∨ i ∈ keep.map (fun t => t.id) := by
    intro i
    rw [hqperm.mem_iff, List.mem_append]
    exact Iff.rfl
  have hres_iff : ∀ i : Nat, i < s.nextId →
      (i ∈ s.restoredIds ++ keep.map (fun t => t.id) ↔ i ∈ s.restoredIds) := by
    intro i hlt
    rw [List.mem_append]
    constructor
    · intro hm
      rcases hm with hm | hm
      · exact hm
      · exact absurd (hkid_fresh i hm) (not_le.2 hlt)
    · exact Or.inl
  refine ⟨?_, ?_, ?_, ?_, ?_⟩
  · intro u hu
    rcases (hmemq u).1 hu with hold | hnew
    · obtain ⟨hst, hlt, htr⟩ := hA u hold
      refine ⟨hst, lt_of_lt_of_le hlt hnext, ?_⟩
      show idTrace u.id s.events
        = (if u.id ∈ s.restoredIds ++ keep.map (fun t => t.id) then [] else [EvTag.q])
      rw [if_congr (hres_iff u.id hlt) rfl rfl]
      exact htr
    · obtain ⟨hstat⟩ := And.intro (hkeep_status u hnew) True.intro
      have hid : s.nextId ≤ u.id := hkid_fresh u.id (List.mem_map_of_mem _ hnew)
      refine ⟨hstat, hkeep_lt u hnew, ?_⟩
      have hin : u.id ∈ s.restoredIds ++ keep.map (fun t => t.id) :=
        List.mem_append.2 (Or.inr (List.mem_map_of_mem _ hnew))
      show idTrace u.id s.events = _
      rw [if_pos hin]
      exact (hF u.id hid).1
  · show ExecInv _
    unfold ExecInv at hB ⊢
    cases hex : s.exec with
    | awaiting t =>
      rw [hex] at hB
      obtain ⟨hrun, hlt, hnq, htr⟩ := hB
      refine ⟨hrun, lt_of_lt_of_le hlt hnext, ?_, ?_⟩
      · show t.id ∉ (sortQueue (s.queue ++ keep)).map (fun u => u.id)
        intro hm
        rcases (hmemid t.id).1 hm with hm1 | hm1
        · exact hnq hm1
        · exact absurd (hkid_fresh t.id hm1) (not_le.2 hlt)
      · show idTrace t.id s.events = _
        rw [if_congr (hres_iff t.id hlt) rfl rfl]
        exact htr
    | idle => rw [hex] at hB; exact hB
    | loopHead => rw [hex] at hB; exact hB
    | postExpire => rw [hex] at hB; exact hB
  · show ((sortQueue (s.queue ++ keep)).map (fun t => t.id)).Nodup
    rw [hqperm.nodup_iff, List.nodup_append]
    refine ⟨hC, hkid_nodup, ?_⟩
    intro i hi hik
    obtain ⟨u, hu, rfl⟩ := List.mem_map.1 hi
    exact absurd (hkid_fresh u.id hik) (not_le.2 (hA u hu).2.1)
  · intro i hi haw
    have hik : i ∉ keep.map (fun t => t.id) := by
      intro hm
      exact hi ((hmemid i).2 (Or.inr hm))
    have hiq : i ∉ queueIds s := by
      intro hm
      exact hi ((hmemid i).2 (Or.inl hm))
    have hold := hD i hiq (fun u hu => haw u hu)
    have hri : i ∈ s.restoredIds ++ keep.map (fun t => t.id) ↔ i ∈ s.restoredIds := by
      rw [List.mem_append]
      exact ⟨fun hm => hm.elim id (fun hm2 => absurd hm2 hik), Or.inl⟩
    constructor
    · intro hm
      exact hold.1 (hri.1 hm)
    · intro hm
      exact hold.2 (fun hm2 => hm (hri.2 hm2))
  · intro i hle
    have hle' : s.nextId ≤ i := le_trans hnext hle
    refine ⟨(hF i hle').1, ?_⟩
    intro hm
    rcases List.mem_append.1 hm with hm1 | hm1
    · exact (hF i hle').2 hm1
    · obtain ⟨u, hu, rfl⟩ := List.mem_map.1 hm1
      exact absurd (hkeep_lt u hu) (not_lt.2 hle)

/-- Every transition preserves the lifecycle invariant. -/
theorem inv_step (cfg : QueueConfig) (b : Bool) (s s' : QState) (h : Inv s)
    (hs : Step cfg b s s') : Inv s' := by
  cases hs with
  | enqueue b s scanner source priority files =>
    exact inv_enqueueOp s scanner source priority files h
  | restoreStep s ts hfresh hnodup => exact inv_restoreOp cfg s ts h hfresh hnodup
  | loopEnter b s hex => exact inv_loopEnterOp cfg s h hex
  | pick b s hex => exact inv_pickOp cfg s h hex
  | finish b s t outcome hex => exact inv_finishOp s t outcome h hex
  | tick b s d => exact inv_tick s d h

/-- The lifecycle invariant holds in every reachable state. -/
theorem inv_reach (cfg : QueueConfig) (b : Bool) (s : QState) (h : Reach cfg b s) :
    Inv s := by
  induction h with
  | refl => exact inv_initState
  | tail hr hstep ih => exact inv_step cfg b _ _ ih hstep

/-- C10: in every reachable state of the queue — for every configuration,
including `maxConcurrent > 1` — at most one task is running: the single
executor loop awaits each scanner invocation before picking the next
task and the `processing` flag prevents re-entrant loops, so the running
map never holds more than one entry; consequently at most one task (and
so at most one per scanner id) is in flight, and every queued task still
has status `queued`. -/
theorem claim_C10_single_running (cfg : QueueConfig) (s : QState)
    (h : Reach cfg true s) :
    s.running.length ≤ 1 ∧
    (∀ p1 ∈ s.running, ∀ p2 ∈ s.running, p1 = p2) ∧
    (∀ t ∈ s.queue, t.status = TaskStatus.queued) := by
  have hi := inv_reach cfg true s h
  obtain ⟨hA, hB, hC, hD, hF⟩ := hi
  unfold ExecInv at hB
  have hrun : s.running = [] ∨ ∃ t : Task, s.running = [(t.scanner, t)] := by
    cases hex : s.exec with
    | awaiting t =>
      rw [hex] at hB
      exact Or.inr ⟨t, hB.1⟩
    | idle => rw [hex] at hB; exact Or.inl hB
    | loopHead => rw [hex] at hB; exact Or.inl hB
    | postExpire => rw [hex] at hB; exact Or.inl hB
  refine ⟨?_, ?_, fun t ht => (hA t ht).1⟩
  · rcases hrun with hr | ⟨t, hr⟩ <;> rw [hr] <;> simp
  · rcases hrun with hr | ⟨t, hr⟩ <;> rw [hr]
    · intro p1 hp1
      exact absurd hp1 (List.not_mem_nil p1)
    · intro p1 hp1 p2 hp2
      rw [List.mem_singleton] at hp1 hp2
      rw [hp1, hp2]

/-- A concrete run shared by the queue witnesses: enqueue a NORMAL-
priority task, then a HIGH-priority one for another scanner. -/
def exS1 : QState := enqueueOp initState "barrel-exports" TaskSource.cli NORMAL none

/-- Second enqueue of the shared concrete run. -/
def exS2 : QState := enqueueOp exS1 "design-tokens" TaskSource.cli HIGH none

/-- The shared run after the executor enters the loop and expires
nothing. -/
def exS3 : QState := loopEnterOp DEFAULT_QUEUE_CONFIG exS2

/-- The shared run after the pick: the HIGH task is started. -/
def exS4 : QState := pickOp DEFAULT_QUEUE_CONFIG exS3

theorem reach_exS3 (b : Bool) :
    Relation.ReflTransGen (Step DEFAULT_QUEUE_CONFIG b) initState exS3 :=
  Relation.ReflTransGen.tail (Relation.ReflTransGen.tail (Relation.ReflTransGen.tail
    Relation.ReflTransGen.refl
    (Step.enqueue b initState "barrel-exports" TaskSource.cli NORMAL none))
    (Step.enqueue b exS1 "design-tokens" TaskSource.cli HIGH none))
    (Step.loopEnter b exS2 (by decide))

theorem reach_exS4 (b : Bool) :
    Relation.ReflTransGen (Step DEFAULT_QUEUE_CONFIG b) initState exS4 :=
  Relation.ReflTransGen.tail (reach_exS3 b) (Step.pick b exS3 (by decide))

/-- Witness for C10 at the concrete run: after two enqueues, loop entry
and a pick, exactly one task is running. -/
theorem claim_C10_witness :
    exS4.running.length ≤ 1 ∧ exS4.running.length = 1 :=
  ⟨(claim_C10_single_running DEFAULT_QUEUE_CONFIG exS4 (reach_exS4 true)).1, by decide⟩

/-- The boolean dedup test of `enqueue` holds exactly for a queued task
with the same scanner and an equal file-set. -/
theorem enqueue_dup_iff (s : QState) (scanner : String) (files : Option (List String)) :
    (s.queue.any (fun t => t.scanner == scanner
        && decide (t.status = TaskStatus.queued) && sameFiles t.files files)) = true
      ↔ ∃ t ∈ s.queue, t.status = TaskStatus.queued ∧ t.scanner = scanner
        ∧ FilesEq t.files files := by
  rw [List.any_eq_true]
  constructor
  · rintro ⟨t, ht, hp⟩
    rw [Bool.and_eq_true, Bool.and_eq_true] at hp
    exact ⟨t, ht, of_decide_eq_true hp.1.2, by
      have := hp.1.1
      rwa [beq_iff_eq] at this, (sameFiles_iff_FilesEq _ _).1 hp.2⟩
  · rintro ⟨t, ht, hst, hsc, hfe⟩
    refine ⟨t, ht, ?_⟩
    rw [Bool.and_eq_true, Bool.and_eq_true]
    exact ⟨⟨by rw [beq_iff_eq]; exact hsc, decide_eq_true hst⟩,
      (sameFiles_iff_FilesEq _ _).2 hfe⟩

/-- C1: in every reachable state, `enqueue` returns null exactly when a
queued task with the same scanner and an equal file-set (multiset
comparison; both-absent equal, one-absent unequal) exists, or such a
task for the same scanner is currently running; otherwise it appends a
fresh queued task and returns its fresh id. -/
theorem claim_C1_enqueue_coalescing (cfg : QueueConfig) (b : Bool) (s : QState)
    (h : Reach cfg b s) (scanner : String) (source : TaskSource) (priority : Nat)
    (files : Option (List String)) :
    ((enqueueFn s scanner source priority files).2 = none ↔
      (∃ t ∈ s.queue, t.status = TaskStatus.queued ∧ t.scanner = scanner
        ∧ FilesEq t.files files) ∨
      (∃ t ∈ s.running.map (fun p => p.2), t.scanner = scanner
        ∧ FilesEq t.files files)) ∧
    ((enqueueFn s scanner source priority files).2 ≠ none →
      (enqueueFn s scanner source priority files).2 = some s.nextId ∧
      s.nextId ∉ queueIds s ∧
      ((enqueueFn s scanner source priority files).1.queue).Perm
        (s.queue ++ [mkNewTask s scanner source priority files]) ∧
      (mkNewTask s scanner source priority files).status = TaskStatus.queued ∧
      (enqueueFn s scanner source priority files).1.events
        = s.events ++ [Ev.queued s.nextId]) := by
  obtain ⟨hA, hB, hC, hD, hF⟩ := inv_reach cfg b s h
  have hrun_iff : (match lookupRunning s.running scanner with
      | some rt => sameFiles rt.files files
      | none => false) = true
      ↔ ∃ t ∈ s.running.map (fun p => p.2), t.scanner = scanner
        ∧ FilesEq t.files files := by
    unfold ExecInv at hB
    have hcases : s.running = [] ∨ ∃ t : Task, s.running = [(t.scanner, t)] := by
      cases hex : s.exec with
      | awaiting t => rw [hex] at hB; exact Or.inr ⟨t, hB.1⟩
      | idle => rw [hex] at hB; exact Or.inl hB
      | loopHead => rw [hex] at hB; exact Or.inl hB
      | postExpire => rw [hex] at hB; exact Or.inl hB
    rcases hcases with hr | ⟨t, hr⟩
    · rw [hr]
      simp [lookupRunning]
    · rw [hr]
      unfold lookupRunning
      by_cases hsc : t.scanner = scanner
      · rw [List.find?_cons_of_pos _ (by simp [hsc])]
        simp only [Option.map_some, List.map_cons, List.map_nil]
        constructor
        · intro hsf
          exact ⟨t, List.mem_singleton_self t, hsc, (sameFiles_iff_FilesEq _ _).1 hsf⟩
        · rintro ⟨u, hu, -, hfe⟩
          rw [List.mem_singleton] at hu
          subst hu
          exact (sameFiles_iff_FilesEq _ _).2 hfe
      · rw [List.find?_cons_of_neg _ (by simp [hsc]), List.find?_nil]
        simp only [Option.map_none, List.map_cons, List.map_nil]
        constructor
        · intro hfalse
          exact absurd hfalse (by simp)
        · rintro ⟨u, hu, hus, -⟩
          rw [List.mem_singleton] at hu
          subst hu
          exact absurd hus hsc
  constructor
  · constructor
    · intro hnone
      by_cases h1 : (s.queue.any (fun t => t.scanner == scanner
          && decide (t.status = TaskStatus.queued) && sameFiles t.files files)) = true
      · exact Or.inl ((enqueue_dup_iff s scanner files).1 h1)
      · refine Or.inr (hrun_iff.1 ?_)
        by_contra h2
        have : (enqueueFn s scanner source priority files).2 = some s.nextId := by
          unfold enqueueFn
          rw [if_neg h1, if_neg h2]
          rfl
        rw [hnone] at this
        exact absurd this (by simp)
    · intro hd
      rcases hd with hd | hd
      · unfold enqueueFn
        rw [if_pos ((enqueue_dup_iff s scanner files).2 hd)]
      · by_cases h1 : (s.queue.any (fun t => t.scanner == scanner
            && decide (t.status = TaskStatus.queued) && sameFiles t.files files)) = true
        · unfold enqueueFn
          rw [if_pos h1]
        · unfold enqueueFn
          rw [if_neg h1, if_pos (hrun_iff.2 hd)]
  · intro hne
    rcases enqueueFn_none_or s scanner source priority files with he | he
    · rw [he] at hne
      exact absurd rfl hne
    · rw [he]
      refine ⟨rfl, ?_, ?_, rfl, rfl⟩
      · intro hm
        obtain ⟨t, ht, hid⟩ := List.mem_map.1 hm
        exact absurd ((hA t ht).2.1) (hid ▸ lt_irrefl _)
      · exact sortQueue_perm _

theorem reach_exS1 (b : Bool) :
    Relation.ReflTransGen (Step DEFAULT_QUEUE_CONFIG b) initState exS1 :=
  Relation.ReflTransGen.tail Relation.ReflTransGen.refl
    (Step.enqueue b initState "barrel-exports" TaskSource.cli NORMAL none)

/-- Witness for C1: immediately re-enqueueing the same scanner with no
file list is coalesced to null (the S1 scenario). -/
theorem claim_C1_witness :
    (enqueueFn exS1 "barrel-exports" TaskSource.cli NORMAL none).2 = none :=
  (claim_C1_enqueue_coalescing DEFAULT_QUEUE_CONFIG true exS1 (reach_exS1 true)
      "barrel-exports" TaskSource.cli NORMAL none).1.mpr
    (Or.inl ⟨mkNewTask initState "barrel-exports" TaskSource.cli NORMAL none,
      by decide, by decide, by decide, trivial⟩)

/-- The restored task of the C3 counterexample: CRITICAL priority,
persisted by a previous run under UUID 5. -/
def tR : Task :=
  { id := 5
    scanner := "design-tokens"
    priority := 0
    source := TaskSource.cli
    files := none
    createdAt := 0
    status := TaskStatus.queued
    startedAt := none
    completedAt := none
    error := none }

/-- Counterexample run: restore `tR`, enqueue an unrelated task (which
kicks the executor), enter the loop, pick. -/
def cex1 : QState := restoreOp DEFAULT_QUEUE_CONFIG initState [tR]

/-- Second state of the counterexample run. -/
def cex2 : QState := enqueueOp cex1 "barrel-exports" TaskSource.cli NORMAL none

/-- Third state of the counterexample run. -/
def cex3 : QState := loopEnterOp DEFAULT_QUEUE_CONFIG cex2

/-- Final state of the counterexample run: the restored task is started. -/
def cex4 : QState := pickOp DEFAULT_QUEUE_CONFIG cex3

theorem reach_cex4 : Reach DEFAULT_QUEUE_CONFIG true cex4 :=
  Relation.ReflTransGen.tail (Relation.ReflTransGen.tail (Relation.ReflTransGen.tail
    (Relation.ReflTransGen.tail Relation.ReflTransGen.refl
      (Step.restoreStep initState [tR] (by decide) (by decide)))
    (Step.enqueue true cex1 "barrel-exports" TaskSource.cli NORMAL none))
    (Step.loopEnter true cex2 (by decide)))
    (Step.pick true cex3 (by decide))

/-- C3 counterexample: a task reloaded by `restore` (id 5) emits
`task:started` although no `task:queued` for id 5 was ever emitted in
this run — `restore` re-queues tasks without emitting `task:queued`, so
the claimed per-id traces do not hold for restored tasks. -/
theorem claim_C3_counterexample :
    Reach DEFAULT_QUEUE_CONFIG true cex4 ∧
    Ev.started 5 ∈ cex4.events ∧ Ev.queued 5 ∉ cex4.events :=
  ⟨reach_cex4, by decide, by decide⟩

/-- C3 amended: for every task id, the emitted per-id trace is a prefix
of `queued → started → (completed|failed)` or of `queued → expired` when
the id was created by `enqueue`; a task reloaded by `restore` emits the
same traces without the leading `task:queued` (its `task:queued` was
emitted by the run that persisted it), i.e. a prefix of
`started → (completed|failed)` or `expired`. -/
theorem claim_C3_trace_amended (cfg : QueueConfig) (s : QState)
    (h : Reach cfg true s) (i : Nat) :
    (i ∉ s.restoredIds → idTrace i s.events ∈
      [([] : List EvTag), [EvTag.q], [EvTag.q, EvTag.s], [EvTag.q, EvTag.s, EvTag.c],
       [EvTag.q, EvTag.s, EvTag.f], [EvTag.q, EvTag.e]]) ∧
    (i ∈ s.restoredIds → idTrace i s.events ∈
      [([] : List EvTag), [EvTag.s], [EvTag.s, EvTag.c], [EvTag.s, EvTag.f],
       [EvTag.e]]) := by
  obtain ⟨hA, hB, hC, hD, hF⟩ := inv_reach cfg true s h
  by_cases hq : i ∈ queueIds s
  · obtain ⟨t, ht, rfl⟩ := List.mem_map.1 hq
    obtain ⟨-, -, htr⟩ := hA t ht
    constructor
    · intro hres
      rw [htr, if_neg hres]
      simp
    · intro hres
      rw [htr, if_pos hres]
      simp
  · by_cases haw : ∃ t : Task, s.exec = ExecPC.awaiting t ∧ t.id = i
    · obtain ⟨t, hex, rfl⟩ := haw
      unfold ExecInv at hB
      rw [hex] at hB
      obtain ⟨-, -, -, htr⟩ := hB
      constructor
      · intro hres
        rw [htr, if_neg hres]
        simp
      · intro hres
        rw [htr, if_pos hres]
        simp
    · have hold := hD i hq (fun t ht hid => haw ⟨t, ht, hid⟩)
      constructor
      · intro hres
        have hm := hold.2 hres
        simp only [doneTracesQ, List.mem_cons, List.not_mem_nil, or_false] at hm
        rcases hm with hm | hm | hm | hm <;> simp [hm]
      · intro hres
        have hm := hold.1 hres
        simp only [doneTracesR, List.mem_cons, List.not_mem_nil, or_false] at hm
        rcases hm with hm | hm | hm | hm <;> simp [hm]

/-- Witness for C3's amended theorem at the counterexample run and the
restored id 5 (whose trace is `[started]`). -/
theorem claim_C3_witness :
    ((5 ∉ cex4.restoredIds → idTrace 5 cex4.events ∈
      [([] : List EvTag), [EvTag.q], [EvTag.q, EvTag.s], [EvTag.q, EvTag.s, EvTag.c],
       [EvTag.q, EvTag.s, EvTag.f], [EvTag.q, EvTag.e]]) ∧
    (5 ∈ cex4.restoredIds → idTrace 5 cex4.events ∈
      [([] : List EvTag), [EvTag.s], [EvTag.s, EvTag.c], [EvTag.s, EvTag.f],
       [EvTag.e]])) ∧
    idTrace 5 cex4.events = [EvTag.s] :=
  ⟨claim_C3_trace_amended DEFAULT_QUEUE_CONFIG cex4 reach_cex4 5, by decide⟩

/-! Priority order with FIFO tie-breaking (for claim C2).  Task ids are
assigned from the monotone counter, so id order is enqueue order. -/

/-- Strict queue discipline: ascending priority, ascending id within one
priority. -/
def taskOrd (a b : Task) : Prop :=
  a.priority < b.priority ∨ (a.priority = b.priority ∧ a.id < b.id)

theorem taskOrd_le {a b : Task} (h : taskOrd a b) : taskLE a b := by
  unfold taskLE
  rcases h with h | ⟨h, -⟩
  · exact le_of_lt h
  · exact le_of_eq h

theorem orderedInsert_of_forall_le (a : Task) :
    ∀ l : List Task, (∀ y ∈ l, taskLE a y) →
    List.orderedInsert taskLE a l = a :: l := by
  intro l
  cases l with
  | nil => intro _; rfl
  | cons y l' =>
    intro h
    simp [List.orderedInsert, h y (List.mem_cons_self y l')]

/-- A stable sort of an already-sorted list with one element appended
places the new element after every element it compares
less-than-or-equal to. -/
theorem sortQueue_sorted_append (x : Task) :
    ∀ q : List Task, q.Pairwise taskLE →
    sortQueue (q ++ [x]) = q.takeWhile (fun a => decide (taskLE a x))
      ++ x :: q.dropWhile (fun a => decide (taskLE a x)) := by
  intro q
  induction q with
  | nil => intro _; rfl
  | cons a q' ih =>
    intro hpw
    have hq' := (List.pairwise_cons.1 hpw).2
    have hall := (List.pairwise_cons.1 hpw).1
    show List.insertionSort taskLE ((a :: q') ++ [x]) = _
    rw [List.cons_append]
    simp only [List.insertionSort]
    rw [show List.insertionSort taskLE (q' ++ [x])
        = q'.takeWhile (fun y => decide (taskLE y x))
          ++ x :: q'.dropWhile (fun y => decide (taskLE y x)) from ih hq']
    by_cases hax : taskLE a x
    · rw [List.takeWhile_cons, if_pos (by simpa using hax),
        List.dropWhile_cons, if_pos (by simpa using hax)]
      cases htk : q'.takeWhile (fun y => decide (taskLE y x)) with
      | nil =>
        simp only [List.nil_append, List.cons_append]
        simp [List.orderedInsert, hax]
      | cons y T' =>
        have hy : y ∈ q'.takeWhile (fun y => decide (taskLE y x)) :=
          htk ▸ List.mem_cons_self y T'
        have hyq : y ∈ q' := (List.takeWhile_sublist _).subset hy
        have hay : taskLE a y := hall y hyq
        simp only [List.cons_append]
        simp [List.orderedInsert, hay]
    · have hnone : ∀ y ∈ q', ¬ taskLE y x := by
        intro y hy hyx
        refine hax ?_
        unfold taskLE at hall hyx ⊢
        exact le_trans (hall y hy) hyx
      have htk : q'.takeWhile (fun y => decide (taskLE y x)) = [] := by
        cases hq'c : q' with
        | nil => rfl
        | cons y l =>
          rw [List.takeWhile_cons,
            if_neg (by simpa using hnone y (hq'c ▸ List.mem_cons_self y l))]
      have hdr : q'.dropWhile (fun y => decide (taskLE y x)) = q' := by
        cases hq'c : q' with
        | nil => rfl
        | cons y l =>
          rw [List.dropWhile_cons,
            if_neg (by simpa using hnone y (hq'c ▸ List.mem_cons_self y l))]
      rw [htk, hdr, List.takeWhile_cons, if_neg (by simpa using hax),
        List.dropWhile_cons, if_neg (by simpa using hax)]
      simp only [List.nil_append]
      rw [show List.orderedInsert taskLE a (x :: q')
          = x :: List.orderedInsert taskLE a q' from by simp [List.orderedInsert, hax],
        orderedInsert_of_forall_le a q' hall]

theorem dropWhile_head_not_task (p : Task → Bool) :
    ∀ (l : List Task) (d0 : Task) (D2 : List Task),
    l.dropWhile p = d0 :: D2 → p d0 = false := by
  intro l
  induction l with
  | nil =>
    intro d0 D2 hcon
    exact absurd hcon (by simp)
  | cons a l ih =>
    intro d0 D2 hcon
    rw [List.dropWhile_cons] at hcon
    by_cases hpa : p a = true
    · rw [if_pos hpa] at hcon
      exact ih d0 D2 hcon
    · rw [if_neg hpa] at hcon
      have ha : a = d0 := (List.cons_eq_cons.1 hcon).1
      rw [← ha]
      simpa using hpa

/-- Appending a fresh task with the largest id to an ordered queue and
re-sorting keeps the queue ordered. -/
theorem ordInv_sortQueue_append (q : List Task) (x : Task)
    (hOrd : q.Pairwise taskOrd) (hid : ∀ t ∈ q, t.id < x.id) :
    (sortQueue (q ++ [x])).Pairwise taskOrd := by
  have hLE : q.Pairwise taskLE := hOrd.imp (fun hab => taskOrd_le hab)
  rw [sortQueue_sorted_append x q hLE]
  have hsplit : q.takeWhile (fun a => decide (taskLE a x))
      ++ q.dropWhile (fun a => decide (taskLE a x)) = q :=
    List.takeWhile_append_dropWhile _ q
  have hOrd2 : (q.takeWhile (fun a => decide (taskLE a x))
      ++ q.dropWhile (fun a => decide (taskLE a x))).Pairwise taskOrd := by
    rw [hsplit]
    exact hOrd
  rw [List.pairwise_append] at hOrd2
  obtain ⟨hT, hD, hTD⟩ := hOrd2
  rw [List.pairwise_append]
  refine ⟨hT, ?_, ?_⟩
  · rw [List.pairwise_cons]
    refine ⟨?_, hD⟩
    intro bb hbb
    cases hd : q.dropWhile (fun a => decide (taskLE a x)) with
    | nil =>
      rw [hd] at hbb
      exact absurd hbb (List.not_mem_nil bb)
    | cons d0 D' =>
      have hd0 : ¬ taskLE d0 x := by
        have := dropWhile_head_not_task (fun a => decide (taskLE a x)) q d0 D' hd
        simpa using this
      have hxd0 : x.priority < d0.priority := by
        unfold taskLE at hd0
        omega
      rw [hd] at hbb
      rcases List.mem_cons.1 hbb with rfl | hbb2
      · exact Or.inl hxd0
      · have hrel : taskOrd d0 bb := (List.pairwise_cons.1 (hd ▸ hD)).1 bb hbb2
        exact Or.inl (lt_of_lt_of_le hxd0 (taskOrd_le hrel))
  · intro a ha bb hbb
    rcases List.mem_cons.1 hbb with rfl | hbb2
    · have hax : taskLE a bb := by simpa using List.mem_takeWhile_imp ha
      have haq : a ∈ q := (List.takeWhile_sublist _).subset ha
      unfold taskLE at hax
      rcases lt_or_eq_of_le hax with hlt | heq
      · exact Or.inl hlt
      · exact Or.inr ⟨heq, hid a haq⟩
    · exact hTD a ha bb hbb2

theorem queue_ite_exec (c : Prop) [Decidable c] (s1 : QState) :
    (if c then { s1 with exec := ExecPC.loopHead } else s1).queue = s1.queue := by
  by_cases hc : c
  · rw [if_pos hc]
  · rw [if_neg hc]

/-- `enqueue` preserves the queue ordering. -/
theorem ordinv_enqueueOp (s : QState) (scanner : String) (source : TaskSource)
    (priority : Nat) (files : Option (List String)) (hInv : Inv s)
    (hOrd : s.queue.Pairwise taskOrd) :
    (enqueueOp s scanner source priority files).queue.Pairwise taskOrd := by
  unfold enqueueOp
  rcases enqueueFn_none_or s scanner source priority files with he | he <;> rw [he]
  · simp only [ne_eq, not_true_eq_false, false_and, if_false]
    exact hOrd
  · have hmain : (sortQueue (s.queue
        ++ [mkNewTask s scanner source priority files])).Pairwise taskOrd :=
      ordInv_sortQueue_append s.queue (mkNewTask s scanner source priority files) hOrd
        (fun t ht => (hInv.1 t ht).2.1)
    rw [queue_ite_exec]
    exact hmain

/-- Loop entry (possible expiry) preserves the queue ordering. -/
theorem ordinv_loopEnterOp (cfg : QueueConfig) (s : QState)
    (hOrd : s.queue.Pairwise taskOrd) :
    (loopEnterOp cfg s).queue.Pairwise taskOrd := by
  unfold loopEnterOp
  split
  · exact hOrd
  · exact List.Pairwise.sublist (List.filter_sublist _) hOrd

/-- The pick preserves the queue ordering. -/
theorem ordinv_pickOp (cfg : QueueConfig) (s : QState) (hInv : Inv s)
    (hOrd : s.queue.Pairwise taskOrd) :
    (pickOp cfg s).queue.Pairwise taskOrd := by
  unfold pickOp
  rw [findIdx?_queue s (fun u hu => (hInv.1 u hu).1)]
  by_cases hqe : s.queue.isEmpty = true
  · rw [if_pos hqe]
    exact hOrd
  · rw [if_neg hqe]
    change ((if cfg.maxConcurrent ≤ s.running.length then _ else _ : QState)).queue.Pairwise taskOrd
    by_cases hlim : cfg.maxConcurrent ≤ s.running.length
    · rw [if_pos hlim]
      exact hOrd
    · rw [if_neg hlim]
      obtain ⟨t0, rest, hq⟩ : ∃ t0 rest, s.queue = t0 :: rest := by
        cases hqm : s.queue with
        | nil => rw [hqm] at hqe; exact absurd rfl hqe
        | cons a l => exact ⟨a, l, rfl⟩
      rw [hq, List.getElem?_cons_zero]
      show rest.Pairwise taskOrd
      exact (List.pairwise_cons.1 (hq ▸ hOrd)).2

/-- On restore-free traces, the invariant and the queue ordering hold in
every reachable state. -/
theorem inv_ord_reach (cfg : QueueConfig) (s : QState) (h : Reach cfg false s) :
    Inv s ∧ s.queue.Pairwise taskOrd := by
  induction h with
  | refl => exact ⟨inv_initState, List.Pairwise.nil⟩
  | tail hr hstep ih =>
    refine ⟨inv_step cfg false _ _ ih.1 hstep, ?_⟩
    cases hstep with
    | enqueue _ _ scanner source priority files =>
      exact ordinv_enqueueOp _ scanner source priority files ih.1 ih.2
    | loopEnter _ _ hex => exact ordinv_loopEnterOp cfg _ ih.2
    | pick _ _ hex => exact ordinv_pickOp cfg _ ih.1 ih.2
    | finish _ _ t outcome hex =>
      cases outcome with
      | ok u => exact ih.2
      | error msg => exact ih.2
    | tick _ _ d => exact ih.2

/-- C2: for every sequence of enqueues (a trace without `restore`), the
task the executor picks has the minimal numeric priority among the
queued tasks at pick time (CRITICAL=0 before HIGH=1 before NORMAL=2
before LOW=3), and among equal-priority tasks it is the
earliest-enqueued one (ids are assigned in enqueue order); hence each
`task:started` event is minimal in priority among the tasks queued at
its pick. -/
theorem claim_C2_priority_order (cfg : QueueConfig) (s : QState)
    (h : Reach cfg false s) (t : Task)
    (hpick : (pickOp cfg s).exec = ExecPC.awaiting t) :
    ∀ u ∈ s.queue, t.priority ≤ u.priority
      ∧ (u.priority = t.priority → t.id ≤ u.id) := by
  obtain ⟨hInv, hOrd⟩ := inv_ord_reach cfg s h
  unfold pickOp at hpick
  rw [findIdx?_queue s (fun u hu => (hInv.1 u hu).1)] at hpick
  by_cases hqe : s.queue.isEmpty = true
  · rw [if_pos hqe] at hpick
    exact absurd hpick (by simp)
  · rw [if_neg hqe] at hpick
    dsimp only at hpick
    by_cases hlim : cfg.maxConcurrent ≤ s.running.length
    · rw [if_pos hlim] at hpick
      exact absurd hpick (by simp)
    · rw [if_neg hlim] at hpick
      obtain ⟨t0, rest, hq⟩ : ∃ t0 rest, s.queue = t0 :: rest := by
        cases hqm : s.queue with
        | nil => rw [hqm] at hqe; exact absurd rfl hqe
        | cons a l => exact ⟨a, l, rfl⟩
      rw [hq, List.getElem?_cons_zero] at hpick
      dsimp only at hpick
      have ht : ({ t0 with
          status := TaskStatus.running
          startedAt := some s.now } : Task) = t := ExecPC.awaiting.inj hpick
      have htpr : t.priority = t0.priority := by rw [← ht]
      have htid : t.id = t0.id := by rw [← ht]
      intro u hu
      rcases List.mem_cons.1 (hq ▸ hu) with rfl | hu2
      · exact ⟨le_of_eq htpr, fun _ => le_of_eq htid⟩
      · have hrel : taskOrd t0 u := (List.pairwise_cons.1 (hq ▸ hOrd)).1 u hu2
        rcases hrel with hlt | ⟨heq, hid⟩
        · refine ⟨htpr ▸ le_of_lt hlt, fun hcon => ?_⟩
          rw [htpr] at hcon
          exact absurd (hcon ▸ hlt) (lt_irrefl _)
        · exact ⟨htpr ▸ le_of_eq heq, fun _ => htid ▸ le_of_lt hid⟩

/-- The HIGH-priority task started by the pick of the shared run. -/
def exT : Task :=
  { id := 1
    scanner := "design-tokens"
    priority := 1
    source := TaskSource.cli
    files := none
    createdAt := 0
    status := TaskStatus.running
    startedAt := some 0
    completedAt := none
    error := none }

/-- The NORMAL-priority task left queued in the shared run. -/
def exU : Task :=
  { id := 0
    scanner := "barrel-exports"
    priority := 2
    source := TaskSource.cli
    files := none
    createdAt := 0
    status := TaskStatus.queued
    startedAt := none
    completedAt := none
    error := none }

/-- Witness for C2: in the shared run the pick chooses the HIGH task over
the earlier-enqueued NORMAL task (the S2 scenario). -/
theorem claim_C2_witness :
    exT.priority ≤ exU.priority ∧ (exU.priority = exT.priority → exT.id ≤ exU.id) :=
  claim_C2_priority_order DEFAULT_QUEUE_CONFIG exS3 (reach_exS3 false) exT
    (by decide) exU (by decide)

end Dcyfr
